import Mathlib

/-!
A verification development for the Tasnuva-TOS virtual file system
(`src/vfs.py`).  The Python `VFS` class stores filesystem nodes as rows of a
SQLite table `filesystem(path UNIQUE, name, type CHECK(type IN
('file','directory')), content DEFAULT '', ...)` and keeps a mutable
`current_path` cursor.  We embed that state as a list of `Node` records plus
the cursor string, model Python strings as `List Char`, and translate each
method of the class into a pure function.  SQLite's `GLOB` operator and the
`ORDER BY type DESC, name` clause are modelled faithfully (in particular
GLOB's `*` matches `/` as well, and `'file' > 'directory'` under BINARY
collation).  Timestamp columns are omitted: no property below observes them.
-/

namespace TOS

/-- Python strings, modelled as lists of characters. -/
abbrev Str := List Char

/-- Coerce a Lean string literal to the `List Char` model. -/
def str (s : String) : Str := s.data

/-- One row of the `filesystem` table (timestamps omitted).  The `type`
column is the raw string stored by the code: `"file"` or `"directory"`. -/
structure Node where
  path : Str
  name : Str
  type : Str
  content : Str
deriving DecidableEq

/-- The visible state of the `VFS` object: the table rows (in rowid order)
and the `current_path` cursor. -/
structure VFSState where
  fs : List Node
  current_path : Str
deriving DecidableEq

/-- Python `s.split('/')`: splits on every `'/'`, keeping empty pieces;
`''.split('/') == ['']`. -/
def splitOnSlash : Str → List Str
  | [] => [[]]
  | c :: cs =>
    if c = '/' then [] :: splitOnSlash cs
    else
      match splitOnSlash cs with
      | [] => [[c]]
      | s :: rest => (c :: s) :: rest

/-- Python `'/'.join(parts)`. -/
def joinSlash : List Str → Str
  | [] => []
  | [p] => p
  | p :: ps => p ++ '/' :: joinSlash ps

/-- Python `s.startswith(pre)` (for a plain prefix argument). -/
def leadsWith : Str → Str → Bool
  | [], _ => true
  | _ :: _, [] => false
  | a :: as, b :: bs => a = b && leadsWith as bs

/-- Python `os.path.basename` on the canonical absolute paths produced by
`normalize_path`: everything after the last `'/'`. -/
def basename (p : Str) : Str :=
  (p.reverse.takeWhile (fun c => c ≠ '/')).reverse

/-- Python `os.path.dirname` on the canonical absolute paths produced by
`normalize_path` (no repeated slashes, no trailing slash except `"/"`):
everything before the last `'/'`, which is `"/"` when the last slash is the
leading one, and `"/"` on `"/"` itself. -/
def dirname (p : Str) : Str :=
  match p.reverse.dropWhile (fun c => c ≠ '/') with
  | [] => []
  | _ :: rest => if rest = [] then ['/'] else rest.reverse

/-- One iteration of `normalize_path`'s loop: drop `''` and `'.'` segments,
pop on `'..'` (silently doing nothing when the stack is empty), keep the
rest. -/
def resolveStep (acc : List Str) (part : Str) : List Str :=
  if part = [] ∨ part = str "." then acc
  else if part = str ".." then acc.dropLast
  else acc ++ [part]

/-- The `parts` stack built by `normalize_path`'s loop. -/
def resolveParts (parts : List Str) : List Str :=
  parts.foldl resolveStep []

/-- The first half of `VFS.normalize_path`: a path not starting with `/` is
made absolute against the current directory. -/
def absPath (current path : Str) : Str :=
  if ¬ leadsWith (str "/") path then
    if current = str "/" then '/' :: path else current ++ '/' :: path
  else path

/-- Model of `VFS.normalize_path`: make the path absolute against `current`, then
resolve `.`/`..`/empty segments and rejoin (`'/' + '/'.join(parts)` when
any segment remains, else `'/'`). -/
def normalize_path (current path : Str) : Str :=
  if resolveParts (splitOnSlash (absPath current path)) = [] then str "/"
  else '/' :: joinSlash (resolveParts (splitOnSlash (absPath current path)))

/-!
SQLite `GLOB` matching, as implemented by `patternCompare` in SQLite's
`func.c` with `[*?[]` wildcards and case-sensitive comparison: `*` matches
any sequence of characters (including `/` — GLOB is not path-aware), `?`
any single character, and `[...]` a character class with optional leading
`^` negation, a literal `]` when first, and `lo-hi` ranges.  A class with
no closing `]` matches nothing.  The `SQLITE_NOWILDCARDMATCH` early exits
of the C code are a search optimisation and do not change the relation
computed here.
-/

/-- Split a class body at its closing `]` (which, in SQLite's scan, is
never consumed as the upper end of a range): returns the member characters
and the pattern rest after `]`, or `none` when the class is unterminated
(an unterminated class matches nothing). -/
def classBody : Str → Option (Str × Str)
  | [] => none
  | c :: rest =>
    if c = ']' then some ([], rest)
    else (classBody rest).map (fun br => (c :: br.1, br.2))

/-- Does character `c` belong to the class members `body`?  `prior` carries
the previous literal member so that `lo-hi` ranges can be recognised; a `-`
that is first, follows a range, or is last acts as a literal, exactly as in
SQLite's scan. -/
def memClass : Str → Char → Option Char → Bool
  | [], _, _ => false
  | c2 :: rest, c, none => (c = c2) || memClass rest c (some c2)
  | c2 :: [], c, some _ => (c = c2) || memClass [] c (some c2)
  | c2 :: hi :: rest', c, some lo =>
    if c2 = '-' then (lo ≤ c && c ≤ hi) || memClass rest' c none
    else (c = c2) || memClass (hi :: rest') c (some c2)

/-- Strip the optional leading `^` of a character class, reporting whether
the class is negated. -/
def classInvert : Str → Bool × Str
  | '^' :: rest => (true, rest)
  | ps => (false, ps)

/-- Handle a literal `]` as first class member, reporting whether it
already matched `c`. -/
def classFirst (c : Char) : Str → Bool × Str
  | ']' :: rest => ((c = ']' : Bool), rest)
  | ps => (false, ps)

/-- Match character `c` against the pattern suffix `ps` that follows an
opening `[`: handles the optional leading `^` (negation) and a literal `]`
first member, then the scanned class body.  Returns the pattern rest after
the closing `]` when `c` is accepted, `none` otherwise. -/
def classMatch (ps : Str) (c : Char) : Option Str :=
  match classBody (classFirst c (classInvert ps).2).2 with
  | some (body, rest) =>
    if ((classFirst c (classInvert ps).2).1 || memClass body c none)
        ≠ (classInvert ps).1
    then some rest else none
  | none => none

/-- One step of SQLite `GLOB` matching, with explicit fuel so that the
function is structurally recursive (and hence computable by the kernel).
Every recursive call strictly decreases `p.length + s.length`, so the fuel
used by `globMatch` below is never exhausted and the `0` branch is dead
code. -/
def globMatchF : Nat → Str → Str → Bool
  | 0, _, _ => false
  | _ + 1, [], s => s.isEmpty
  | fuel + 1, pc :: ps, [] =>
    if pc = '*' then globMatchF fuel ps [] else false
  | fuel + 1, pc :: ps, c :: s' =>
    if pc = '*' then
      globMatchF fuel ps (c :: s') || globMatchF fuel (pc :: ps) s'
    else if pc = '?' then
      globMatchF fuel ps s'
    else if pc = '[' then
      match classMatch ps c with
      | some rest => globMatchF fuel rest s'
      | none => false
    else
      (pc = c) && globMatchF fuel ps s'

/-- SQLite `GLOB`: does pattern `p` match the whole string `s`? -/
def globMatch (p s : Str) : Bool :=
  globMatchF (p.length + s.length + 1) p s

/-!
SQL `ORDER BY type DESC, name`: rows are compared by the `type` string
descending, then by `name` ascending, both under SQLite's BINARY collation
(bytewise comparison of the UTF-8 encodings, i.e. code-point order).
A listing row is the projected pair `(name, type)`.
-/

/-- Bytewise (code-point) strict comparison of two strings — SQLite's
BINARY collation. -/
def strLt : Str → Str → Bool
  | [], [] => false
  | [], _ :: _ => true
  | _ :: _, [] => false
  | a :: as, b :: bs => if a < b then true else if a = b then strLt as bs else false

/-- Row order used by `list_directory`'s `ORDER BY type DESC, name`:
`a` may come before `b` iff `a.type` is greater, or the types are equal and
`a.name` is not greater. -/
def rowLE (a b : Str × Str) : Prop :=
  strLt b.2 a.2 = true ∨ (a.2 = b.2 ∧ (strLt a.1 b.1 = true ∨ a.1 = b.1))

instance : DecidableRel rowLE := fun a b => by
  unfold rowLE; infer_instance

/-- The VFS table rows created by `init_database` on a fresh database (and
restored by `reset_filesystem`), in insertion (rowid) order. -/
def init_database : List Node :=
  [ { path := str "/", name := str "root", type := str "directory", content := [] },
    { path := str "/home", name := str "home", type := str "directory", content := [] },
    { path := str "/tmp", name := str "tmp", type := str "directory", content := [] },
    { path := str "/usr", name := str "usr", type := str "directory", content := [] },
    { path := str "/var", name := str "var", type := str "directory", content := [] },
    { path := str "/welcome.txt", name := str "welcome.txt", type := str "file",
      content := str "Welcome to Tasnuva TOS!\nThis is a virtual filesystem.\nTry commands like ls, cd, mkdir, touch, cat, echo, rm.\n" } ]

/-- The state of a freshly constructed `VFS` (empty database):
`current_path = "/"` and the default rows. -/
def initState : VFSState := { fs := init_database, current_path := str "/" }

/-- The SQL `UPDATE ... WHERE path = ?` of `write_file`: replace the content
of every row whose path equals `q`. -/
def contentUpdate (q C : Str) (n : Node) : Node :=
  if n.path == q then { n with content := C } else n

namespace VFS

/-- Model of `VFS.exists`: a row with the normalized path is present. -/
def exists_node (s : VFSState) (path : Str) : Bool :=
  let path := normalize_path s.current_path path
  s.fs.any (fun n => n.path == path)

/-- Model of `VFS.is_directory`. -/
def is_directory (s : VFSState) (path : Str) : Bool :=
  let path := normalize_path s.current_path path
  match s.fs.find? (fun n => n.path == path) with
  | some n => n.type == str "directory"
  | none => false

/-- Model of `VFS.is_file`. -/
def is_file (s : VFSState) (path : Str) : Bool :=
  let path := normalize_path s.current_path path
  match s.fs.find? (fun n => n.path == path) with
  | some n => n.type == str "file"
  | none => false

/-- The GLOB pattern `'/[^/]*'` or `path + '/[^/]*'` used by
`list_directory` and `remove`. -/
def globChildren (path : Str) : Str :=
  if path = str "/" then str "/[^/]*" else path ++ str "/[^/]*"

/-- Model of `VFS.list_directory`: `None` when the normalized path is missing or not
a directory, otherwise the `(name, type)` rows whose path GLOB-matches
`path + '/[^/]*'` (excluding `path` itself), ordered by
`type DESC, name`. -/
def list_directory (s : VFSState) (pathArg : Option Str) : Option (List (Str × Str)) :=
  let path := pathArg.getD s.current_path
  let path := normalize_path s.current_path path
  if ¬ (exists_node s path ∧ is_directory s path) then none
  else
    let rows := s.fs.filter (fun n => globMatch (globChildren path) n.path && ¬ (n.path == path))
    some (List.insertionSort rowLE (rows.map (fun n => (n.name, n.type))))

/-- Model of `VFS.read_file`. -/
def read_file (s : VFSState) (path : Str) : Option Str :=
  let path := normalize_path s.current_path path
  if ¬ (exists_node s path ∧ is_file s path) then none
  else
    match s.fs.find? (fun n => n.path == path) with
    | some n => some n.content
    | none => none

/-- Model of `VFS.write_file`: rejected when the path exists and is not a file;
otherwise updates the matching row (appending when `append` and the row
exists) or inserts a new `file` row. -/
def write_file (s : VFSState) (path content : Str) (append : Bool) : Bool × VFSState :=
  let path := normalize_path s.current_path path
  if exists_node s path then
    if ¬ is_file s path then (false, s)
    else
      let content :=
        if append then
          (match s.fs.find? (fun n => n.path == path) with
           | some n => n.content
           | none => []) ++ content
        else content
      (true, { s with fs := s.fs.map (contentUpdate path content) })
  else
    (true,
      { s with fs := s.fs ++
          [{ path := path, name := basename path, type := str "file", content := content }] })

/-- Model of `VFS.create_directory`: fails when the normalized path exists or when
the parent (`os.path.dirname`) differs from the path and does not exist;
otherwise inserts an empty `directory` row. -/
def create_directory (s : VFSState) (path : Str) : Bool × VFSState :=
  let path := normalize_path s.current_path path
  if exists_node s path then (false, s)
  else
    let parent := dirname path
    if parent ≠ path ∧ ¬ exists_node s parent then (false, s)
    else
      (true,
        { s with fs := s.fs ++
            [{ path := path, name := basename path, type := str "directory", content := [] }] })

/-- Model of `VFS.remove`: fails when the path is missing, or is a directory with at
least one row GLOB-matching `path + '/[^/]*'`; otherwise deletes the row
with that exact path. -/
def remove (s : VFSState) (path : Str) : Bool × VFSState :=
  let path := normalize_path s.current_path path
  if ¬ exists_node s path then (false, s)
  else if is_directory s path ∧
      0 < s.fs.countP (fun n => globMatch (globChildren path) n.path) then
    (false, s)
  else
    (true, { s with fs := s.fs.filter (fun n => ¬ (n.path == path)) })

/-- Model of `VFS.change_directory`. -/
def change_directory (s : VFSState) (path : Str) : Bool × VFSState :=
  let path := normalize_path s.current_path path
  if ¬ (exists_node s path ∧ is_directory s path) then (false, s)
  else (true, { s with current_path := path })

/-- Model of `VFS.get_current_directory`. -/
def get_current_directory (s : VFSState) : Str := s.current_path

/-- Model of `VFS.reset_filesystem`: drops the table, resets the cursor to `"/"`,
and recreates the default rows, unconditionally returning `True`. -/
def reset_filesystem (_s : VFSState) : Bool × VFSState :=
  (true, initState)

end VFS

open VFS in
/-- States reachable from the fresh-database initial state by any sequence
of the mutating operations (`write_file`, `create_directory`, `remove`,
`change_directory`, `reset_filesystem`); the query methods do not change
the state. -/
inductive Reachable : VFSState → Prop
  | init : Reachable initState
  | write (s : VFSState) (p c : Str) (a : Bool) :
      Reachable s → Reachable (write_file s p c a).2
  | mkdir (s : VFSState) (p : Str) :
      Reachable s → Reachable (create_directory s p).2
  | rm (s : VFSState) (p : Str) :
      Reachable s → Reachable (remove s p).2
  | cd (s : VFSState) (p : Str) :
      Reachable s → Reachable (change_directory s p).2
  | reset (s : VFSState) :
      Reachable s → Reachable (reset_filesystem s).2

/-- A normalized segment: nonempty, not `.`, not `..`. -/
def cleanSeg (x : Str) : Prop := x ≠ [] ∧ x ≠ str "." ∧ x ≠ str ".."

instance (x : Str) : Decidable (cleanSeg x) := by unfold cleanSeg; infer_instance

/-- A path in canonical form: `/`, or `/` followed by segments that are
nonempty and are not `.` or `..`, joined by single slashes. -/
def canonicalB : Str → Bool
  | [] => false
  | c :: rest =>
    (c = '/' : Bool) &&
      (rest = ([] : Str) || (splitOnSlash rest).all (fun x => decide (cleanSeg x)))

/-- Characters that are wildcards in a GLOB pattern; a pattern fragment is
`metaFree` when it is matched literally. -/
def metaFree (l : Str) : Bool :=
  l.all (fun c => !(c == '*' || c == '?' || c == '['))

/-- Is path `p` strictly nested under directory path `q` (at any depth)?
Children of the root are `/x`, not `//x`, hence the special case. -/
def nestedUnder (q p : Str) : Bool :=
  (if q = str "/" then leadsWith (str "/") p else leadsWith (q ++ str "/") p)
    && !(p == q)

/-- Scans a path for a `//` substring or a trailing `/`; true when neither
occurs.  Canonical paths other than `/` itself satisfy it. -/
def tidyFrom : Str → Bool
  | [] => true
  | c :: rest =>
    if c = '/' then
      match rest with
      | [] => false
      | c2 :: _ => if c2 = '/' then false else tidyFrom rest
    else tidyFrom rest

/-- The ordering the spec claims for listings: once a `file` row appears,
no `directory` row may follow. -/
def dirsFirst : List (Str × Str) → Bool
  | [] => true
  | (_, t) :: rest =>
    (!(t == str "file") || rest.all (fun r => !(r.2 == str "directory")))
      && dirsFirst rest

open VFS in
/-- Reachability by sequences of mutating operations in which `remove` is
never called with an argument that normalizes to `/`. -/
inductive ReachableNR : VFSState → Prop
  | init : ReachableNR initState
  | write (s : VFSState) (p c : Str) (a : Bool) :
      ReachableNR s → ReachableNR (write_file s p c a).2
  | mkdir (s : VFSState) (p : Str) :
      ReachableNR s → ReachableNR (create_directory s p).2
  | rm (s : VFSState) (p : Str) :
      ReachableNR s → normalize_path s.current_path p ≠ str "/" →
      ReachableNR (remove s p).2
  | cd (s : VFSState) (p : Str) :
      ReachableNR s → ReachableNR (change_directory s p).2
  | reset (s : VFSState) :
      ReachableNR s → ReachableNR (reset_filesystem s).2

/-- Invariants of every reachable state: every stored path is canonical and
every stored kind is `file` or `directory` (the schema CHECK constraint),
paths are unique (the schema UNIQUE constraint), and the cursor is an
absolute path. -/
def wfState (s : VFSState) : Prop :=
  (∀ n ∈ s.fs, canonicalB n.path = true ∧
    (n.type = str "file" ∨ n.type = str "directory")) ∧
  (s.fs.map Node.path).Nodup ∧
  leadsWith (str "/") s.current_path = true

/-! ### Concrete scenario states used by individual claims -/

/-- After `createDirectory("/a")` from the initial state. -/
def sA : VFSState := (VFS.create_directory initState (str "/a")).2

/-- ... then `createDirectory("/a/b")`. -/
def sAB : VFSState := (VFS.create_directory sA (str "/a/b")).2

/-- ... then `writeFile("/a/b/f", "x")`. -/
def sABF : VFSState := (VFS.write_file sAB (str "/a/b/f") (str "x") false).2

/-- Initial state with `/home` removed. -/
def rmHome : VFSState := (VFS.remove initState (str "/home")).2

/-- ... then `/tmp` removed. -/
def rmTmp : VFSState := (VFS.remove rmHome (str "/tmp")).2

/-- ... then `/usr` removed. -/
def rmUsr : VFSState := (VFS.remove rmTmp (str "/usr")).2

/-- ... then `/var` removed. -/
def rmVar : VFSState := (VFS.remove rmUsr (str "/var")).2

/-- ... then `/welcome.txt` removed: only the root row remains. -/
def rmWelcome : VFSState := (VFS.remove rmVar (str "/welcome.txt")).2

/-- ... then `remove("/")`. -/
def rmRoot : VFSState := (VFS.remove rmWelcome (str "/")).2

/-- After `changeDirectory("/home")` from the initial state. -/
def cdHome : VFSState := (VFS.change_directory initState (str "/home")).2

/-- ... then `remove("/home")`: the cursor dangles. -/
def cdHomeRm : VFSState := (VFS.remove cdHome (str "/home")).2

/-- After `createDirectory("/a*")` from the initial state. -/
def mkStar : VFSState := (VFS.create_directory initState (str "/a*")).2

/-- ... then `createDirectory("/ab")`. -/
def mkStarAb : VFSState := (VFS.create_directory mkStar (str "/ab")).2

/-- ... then `createDirectory("/ab/c")`. -/
def mkStarAbc : VFSState := (VFS.create_directory mkStarAb (str "/ab/c")).2

/-! ### Lemmas -/

theorem classBody_length_le :
    ∀ (ps body rest : Str), classBody ps = some (body, rest) →
      rest.length < ps.length := by
  intro ps
  induction ps with
  | nil => intro body rest h; simp [classBody] at h
  | cons c cs ih =>
    intro body rest h
    by_cases hc : c = ']'
    · simp [classBody, hc] at h
      simp [← h.2]
    · simp only [classBody, if_neg hc, Option.map_eq_some'] at h
      obtain ⟨⟨b', r'⟩, hb, heq⟩ := h
      have := ih b' r' hb
      cases heq
      simp
      omega

theorem classInvert_length_le (ps : Str) :
    (classInvert ps).2.length ≤ ps.length := by
  match ps with
  | [] => simp [classInvert]
  | c0 :: r =>
    by_cases hc0 : c0 = '^' <;> simp [classInvert, hc0]

theorem classFirst_length_le (c : Char) (ps : Str) :
    (classFirst c ps).2.length ≤ ps.length := by
  match ps with
  | [] => simp [classFirst]
  | c0 :: r =>
    by_cases hc0 : c0 = ']' <;> simp [classFirst, hc0]

theorem classMatch_length_le (ps rest : Str) (c : Char)
    (h : classMatch ps c = some rest) : rest.length < ps.length + 1 := by
  have h1 := classInvert_length_le ps
  have h2 := classFirst_length_le c (classInvert ps).2
  unfold classMatch at h
  cases hb : classBody (classFirst c (classInvert ps).2).2 with
  | none => simp only [hb] at h; exact absurd h (by simp)
  | some br =>
    obtain ⟨body, r⟩ := br
    have h3 := classBody_length_le _ body r hb
    simp only [hb] at h
    split at h
    · injection h with h'
      subst h'
      omega
    · exact absurd h (by simp)

theorem globMatchF_congr (f : Nat) :
    ∀ (g : Nat) (p s : Str), p.length + s.length < f → p.length + s.length < g →
      globMatchF f p s = globMatchF g p s := by
  induction f with
  | zero => intro g p s hf _; omega
  | succ f ih =>
    intro g p s hf hg
    cases g with
    | zero => omega
    | succ g =>
      match p, s with
      | [], s => simp [globMatchF]
      | pc :: ps, [] =>
        simp only [globMatchF]
        simp only [List.length_cons, List.length_nil] at hf hg
        by_cases h1 : pc = '*'
        · rw [if_pos h1, if_pos h1, ih g ps [] (by simp; omega) (by simp; omega)]
        · rw [if_neg h1, if_neg h1]
      | pc :: ps, c :: s' =>
        simp only [globMatchF]
        simp only [List.length_cons] at hf hg
        by_cases h1 : pc = '*'
        · rw [if_pos h1, if_pos h1,
            ih g ps (c :: s') (by simp; omega) (by simp; omega),
            ih g (pc :: ps) s' (by simp; omega) (by simp; omega)]
        · rw [if_neg h1, if_neg h1]
          by_cases h2 : pc = '?'
          · rw [if_pos h2, if_pos h2, ih g ps s' (by omega) (by omega)]
          · rw [if_neg h2, if_neg h2]
            by_cases h3 : pc = '['
            · rw [if_pos h3, if_pos h3]
              cases hcm : classMatch ps c with
              | none => simp only [hcm]
              | some rest =>
                have := classMatch_length_le ps rest c hcm
                simp only [hcm]
                rw [ih g rest s' (by omega) (by omega)]
            · rw [if_neg h3, if_neg h3, ih g ps s' (by omega) (by omega)]

theorem globMatchF_eq (f : Nat) (p s : Str) (h : p.length + s.length < f) :
    globMatchF f p s = globMatch p s :=
  globMatchF_congr f (p.length + s.length + 1) p s h (by omega)

/-- Recursion equation: the empty pattern matches only the empty string. -/
theorem globMatch_nil (s : Str) : globMatch [] s = s.isEmpty := by
  simp [globMatch, globMatchF]

/-- Recursion equation: only a leading `*` can match the empty string. -/
theorem globMatch_cons_nil (pc : Char) (ps : Str) :
    globMatch (pc :: ps) [] = if pc = '*' then globMatch ps [] else false := by
  conv_lhs => rw [globMatch]
  simp only [List.length_cons, List.length_nil, globMatchF]
  by_cases h1 : pc = '*'
  · rw [if_pos h1, if_pos h1, globMatchF_eq _ ps [] (by simp)]
  · rw [if_neg h1, if_neg h1]

/-- Recursion equation for a leading `*` against a nonempty string. -/
theorem globMatch_star_cons (ps : Str) (c : Char) (s' : Str) :
    globMatch ('*' :: ps) (c :: s') =
      (globMatch ps (c :: s') || globMatch ('*' :: ps) s') := by
  conv_lhs => rw [globMatch]
  simp only [List.length_cons, globMatchF, if_true]
  rw [globMatchF_eq _ ps (c :: s') (by simp only [List.length_cons]; omega),
    globMatchF_eq _ ('*' :: ps) s' (by simp only [List.length_cons]; omega)]

/-- Recursion equation for a leading `?` against a nonempty string. -/
theorem globMatch_query_cons (ps : Str) (c : Char) (s' : Str) :
    globMatch ('?' :: ps) (c :: s') = globMatch ps s' := by
  conv_lhs => rw [globMatch]
  simp only [List.length_cons, globMatchF]
  rw [if_neg (by decide : ¬ ('?' : Char) = '*')]
  simp only [if_true]
  rw [globMatchF_eq _ ps s' (by omega)]

/-- Recursion equation for a leading `[` against a nonempty string. -/
theorem globMatch_class_cons (ps : Str) (c : Char) (s' : Str) :
    globMatch ('[' :: ps) (c :: s') =
      (match classMatch ps c with
       | some rest => globMatch rest s'
       | none => false) := by
  conv_lhs => rw [globMatch]
  simp only [List.length_cons, globMatchF]
  rw [if_neg (by decide : ¬ ('[' : Char) = '*'),
    if_neg (by decide : ¬ ('[' : Char) = '?')]
  simp only [if_true]
  cases hcm : classMatch ps c with
  | none => simp only [hcm]
  | some rest =>
    have := classMatch_length_le ps rest c hcm
    simp only [hcm]
    rw [globMatchF_eq _ rest s' (by omega)]

/-- Recursion equation for a leading literal character against a nonempty
string. -/
theorem globMatch_lit_cons (pc : Char) (ps : Str) (c : Char) (s' : Str)
    (h1 : pc ≠ '*') (h2 : pc ≠ '?') (h3 : pc ≠ '[') :
    globMatch (pc :: ps) (c :: s') = ((pc = c : Bool) && globMatch ps s') := by
  conv_lhs => rw [globMatch]
  simp only [List.length_cons, globMatchF]
  rw [if_neg h1, if_neg h2, if_neg h3]
  rw [globMatchF_eq _ ps s' (by omega)]

/-! ### Lemmas about splitting, joining and normalization -/

theorem splitOnSlash_ne_nil (l : Str) : splitOnSlash l ≠ [] := by
  cases l with
  | nil => simp [splitOnSlash]
  | cons c cs =>
    by_cases hc : c = '/'
    · simp [splitOnSlash, hc]
    · simp only [splitOnSlash, if_neg hc]
      cases h : splitOnSlash cs <;> simp

theorem mem_splitOnSlash_no_slash (l : Str) :
    ∀ x ∈ splitOnSlash l, '/' ∉ x := by
  induction l with
  | nil => intro x hx; simp [splitOnSlash] at hx; simp [hx]
  | cons c cs ih =>
    intro x hx
    by_cases hc : c = '/'
    · simp only [splitOnSlash, if_pos hc, List.mem_cons] at hx
      rcases hx with h | h
      · simp [h]
      · exact ih x h
    · simp only [splitOnSlash, if_neg hc] at hx
      cases hsp : splitOnSlash cs with
      | nil => exact absurd hsp (splitOnSlash_ne_nil cs)
      | cons s rest =>
        rw [hsp] at hx
        simp only [List.mem_cons] at hx
        rcases hx with h | h
        · subst h
          intro hmem
          simp only [List.mem_cons] at hmem
          rcases hmem with h' | h'
          · exact hc h'.symm
          · exact ih s (by rw [hsp]; exact List.mem_cons_self s rest) h'
        · exact ih x (by rw [hsp]; exact List.mem_cons_of_mem s h)

theorem splitOnSlash_cons_slash (cs : Str) :
    splitOnSlash ('/' :: cs) = [] :: splitOnSlash cs := by
  simp [splitOnSlash]

theorem splitOnSlash_cons_ne (c : Char) (cs : Str) (hc : c ≠ '/')
    (s : Str) (rest : List Str) (hsp : splitOnSlash cs = s :: rest) :
    splitOnSlash (c :: cs) = (c :: s) :: rest := by
  simp only [splitOnSlash, if_neg hc, hsp]

theorem splitOnSlash_no_slash (p : Str) (h : '/' ∉ p) : splitOnSlash p = [p] := by
  induction p with
  | nil => rfl
  | cons c cs ih =>
    have hc : c ≠ '/' := fun he => h (by simp [he])
    simp only [splitOnSlash, if_neg hc]
    rw [ih (fun hm => h (List.mem_cons_of_mem c hm))]

theorem splitOnSlash_append (p l : Str) (h : '/' ∉ p) :
    splitOnSlash (p ++ '/' :: l) = p :: splitOnSlash l := by
  induction p with
  | nil => simp [splitOnSlash]
  | cons c cs ih =>
    have hc : c ≠ '/' := fun he => h (by simp [he])
    have ih' := ih (fun hm => h (List.mem_cons_of_mem c hm))
    simp only [List.cons_append]
    cases hsp : splitOnSlash (cs ++ '/' :: l) with
    | nil => exact absurd hsp (splitOnSlash_ne_nil _)
    | cons s rest =>
      rw [splitOnSlash_cons_ne c _ hc s rest hsp]
      rw [hsp] at ih'
      injection ih' with h1 h2
      rw [h1, h2]

theorem joinSlash_cons₂ (p q : Str) (qs : List Str) :
    joinSlash (p :: q :: qs) = p ++ '/' :: joinSlash (q :: qs) := rfl

theorem splitOnSlash_joinSlash (parts : List Str) (hne : parts ≠ [])
    (h : ∀ x ∈ parts, '/' ∉ x) : splitOnSlash (joinSlash parts) = parts := by
  induction parts with
  | nil => exact absurd rfl hne
  | cons p ps ih =>
    cases ps with
    | nil => simpa [joinSlash] using splitOnSlash_no_slash p (h p (by simp))
    | cons q qs =>
      rw [joinSlash_cons₂, splitOnSlash_append p _ (h p (by simp)),
        ih (by simp) (fun x hx => h x (List.mem_cons_of_mem p hx))]

theorem joinSlash_splitOnSlash (l : Str) : joinSlash (splitOnSlash l) = l := by
  induction l with
  | nil => rfl
  | cons c cs ih =>
    by_cases hc : c = '/'
    · subst hc
      rw [splitOnSlash_cons_slash]
      cases hsp : splitOnSlash cs with
      | nil => exact absurd hsp (splitOnSlash_ne_nil cs)
      | cons s rest =>
        rw [hsp] at ih
        rw [joinSlash_cons₂]
        simpa using ih
    · cases hsp : splitOnSlash cs with
      | nil => exact absurd hsp (splitOnSlash_ne_nil cs)
      | cons s rest =>
        rw [splitOnSlash_cons_ne c cs hc s rest hsp]
        rw [hsp] at ih
        cases rest with
        | nil =>
          simp only [joinSlash] at ih ⊢
          rw [ih]
        | cons r rs =>
          rw [joinSlash_cons₂] at ih
          rw [joinSlash_cons₂]
          simp only [List.cons_append, ih]

theorem foldl_resolveStep_mem (ps : List Str) :
    ∀ (acc : List Str) (x : Str), x ∈ ps.foldl resolveStep acc →
      x ∈ acc ∨ (x ∈ ps ∧ cleanSeg x) := by
  induction ps with
  | nil => intro acc x hx; simp only [List.foldl_nil] at hx; exact Or.inl hx
  | cons p ps ih =>
    intro acc x hx
    simp only [List.foldl_cons] at hx
    rcases ih _ x hx with h | h
    · unfold resolveStep at h
      split_ifs at h with h1 h2
      · exact Or.inl h
      · exact Or.inl ((List.dropLast_sublist _).subset h)
      · simp only [List.mem_append, List.mem_singleton] at h
        rcases h with h | h
        · exact Or.inl h
        · subst h
          push_neg at h1
          exact Or.inr ⟨by simp, h1.1, h1.2, h2⟩
    · exact Or.inr ⟨List.mem_cons_of_mem p h.1, h.2⟩

theorem resolveParts_mem (ps : List Str) :
    ∀ x ∈ resolveParts ps, x ∈ ps ∧ cleanSeg x := by
  intro x hx
  rcases foldl_resolveStep_mem ps [] x hx with h | h
  · simp at h
  · exact h

theorem foldl_resolveStep_clean (ps : List Str)
    (h : ∀ x ∈ ps, cleanSeg x) :
    ∀ acc : List Str, ps.foldl resolveStep acc = acc ++ ps := by
  induction ps with
  | nil => intro acc; simp
  | cons p ps ih =>
    intro acc
    have hp := h p (by simp)
    have hstep : resolveStep acc p = acc ++ [p] := by
      unfold resolveStep
      rw [if_neg (by push_neg; exact ⟨hp.1, hp.2.1⟩), if_neg hp.2.2]
    simp only [List.foldl_cons, hstep,
      ih (fun x hx => h x (List.mem_cons_of_mem p hx))]
    simp

theorem resolveParts_clean (ps : List Str) (h : ∀ x ∈ ps, cleanSeg x) :
    resolveParts ps = ps := by
  unfold resolveParts
  simpa using foldl_resolveStep_clean ps h []

theorem leadsWith_slash (xs : Str) : leadsWith (str "/") ('/' :: xs) = true := by
  show leadsWith ['/'] ('/' :: xs) = true
  simp [leadsWith]

theorem absPath_of_absolute (b p : Str) (h : leadsWith (str "/") p = true) :
    absPath b p = p := by
  unfold absPath
  rw [if_neg (by simp [h])]

/-- Everything `normalize_path` can return: the root path, or a slash
followed by clean, slash-free segments joined by slashes. -/
theorem normalize_path_cases (b p : Str) :
    normalize_path b p = str "/" ∨
    ∃ parts : List Str, parts ≠ [] ∧
      (∀ x ∈ parts, cleanSeg x ∧ '/' ∉ x) ∧
      normalize_path b p = '/' :: joinSlash parts := by
  unfold normalize_path
  by_cases hp : resolveParts (splitOnSlash (absPath b p)) = []
  · left; rw [if_pos hp]
  · right
    refine ⟨resolveParts (splitOnSlash (absPath b p)), hp, ?_, by rw [if_neg hp]⟩
    intro x hx
    have h1 := resolveParts_mem _ x hx
    exact ⟨h1.2, mem_splitOnSlash_no_slash _ x h1.1⟩

/-- Re-normalizing a normalized path (against any base) changes nothing. -/
theorem normalize_path_norm (b b' p : Str) :
    normalize_path b (normalize_path b' p) = normalize_path b' p := by
  rcases normalize_path_cases b' p with h | ⟨parts, hne, hcl, h⟩
  · rw [h]
    rw [normalize_path, absPath_of_absolute b (str "/") (by decide)]
    decide
  · rw [h]
    have habs : absPath b ('/' :: joinSlash parts) = '/' :: joinSlash parts :=
      absPath_of_absolute _ _ (leadsWith_slash _)
    have hsplit : splitOnSlash ('/' :: joinSlash parts) = [] :: parts := by
      rw [splitOnSlash_cons_slash,
        splitOnSlash_joinSlash parts hne (fun x hx => (hcl x hx).2)]
    have hres : resolveParts ([] :: parts) = parts := by
      unfold resolveParts
      simp only [List.foldl_cons]
      have hstep : resolveStep [] [] = [] := by simp [resolveStep]
      rw [hstep]
      simpa using foldl_resolveStep_clean parts (fun x hx => (hcl x hx).1) []
    rw [normalize_path, habs, hsplit, hres, if_neg hne]

theorem normalize_path_absolute (b p : Str) :
    leadsWith (str "/") (normalize_path b p) = true := by
  rcases normalize_path_cases b p with h | ⟨parts, _, _, h⟩
  · rw [h]; decide
  · rw [h]; exact leadsWith_slash _

theorem canonicalB_normalize (b p : Str) :
    canonicalB (normalize_path b p) = true := by
  rcases normalize_path_cases b p with h | ⟨parts, hne, hcl, h⟩
  · rw [h]; decide
  · rw [h]
    show canonicalB ('/' :: joinSlash parts) = true
    simp only [canonicalB]
    rw [splitOnSlash_joinSlash parts hne (fun x hx => (hcl x hx).2)]
    simp only [Bool.and_eq_true, Bool.or_eq_true, List.all_eq_true]
    refine ⟨by simp, Or.inr ?_⟩
    intro x hx
    exact decide_eq_true (hcl x hx).1

/-- Unpack canonicity of a non-root path. -/
theorem canonicalB_elim (p : Str) (h : canonicalB p = true) :
    p = str "/" ∨
    ∃ rest : Str, p = '/' :: rest ∧ rest ≠ [] ∧
      ∀ x ∈ splitOnSlash rest, cleanSeg x := by
  match p with
  | [] => exact absurd h (by decide)
  | c :: rest =>
    simp only [canonicalB, Bool.and_eq_true, Bool.or_eq_true, decide_eq_true_eq,
      List.all_eq_true] at h
    obtain ⟨hc, hrest⟩ := h
    subst hc
    rcases hrest with hnil | hall
    · left; rw [hnil]; rfl
    · by_cases hre : rest = []
      · left; rw [hre]; rfl
      · right
        exact ⟨rest, rfl, hre, fun x hx => hall x hx⟩

/-- Normalization fixes canonical paths. -/
theorem normalize_path_canonical (b p : Str) (h : canonicalB p = true) :
    normalize_path b p = p := by
  rcases canonicalB_elim p h with hroot | ⟨rest, hp, hne, hclean⟩
  · rw [hroot, normalize_path, absPath_of_absolute b _ (by decide)]
    decide
  · subst hp
    rw [normalize_path, absPath_of_absolute b _ (leadsWith_slash _)]
    have hres : resolveParts ([] :: splitOnSlash rest) = splitOnSlash rest := by
      unfold resolveParts
      simp only [List.foldl_cons]
      have hstep : resolveStep [] [] = [] := by simp [resolveStep]
      rw [hstep]
      simpa using foldl_resolveStep_clean _ hclean []
    rw [splitOnSlash_cons_slash, hres, if_neg (splitOnSlash_ne_nil _),
      joinSlash_splitOnSlash]


/-! ### The BINARY-collation order -/

theorem strLt_nil_cons (b : Char) (bs : Str) : strLt [] (b :: bs) = true := rfl

theorem strLt_irrefl (x : Str) : strLt x x = false := by
  induction x with
  | nil => rfl
  | cons a as ih =>
    simp only [strLt]
    rw [if_neg (lt_irrefl a)]
    simp only [if_true]
    exact ih

theorem strLt_trans (x : Str) :
    ∀ y z, strLt x y = true → strLt y z = true → strLt x z = true := by
  induction x with
  | nil =>
    intro y z hxy hyz
    cases y with
    | nil => simp [strLt] at hxy
    | cons b bs =>
      cases z with
      | nil => simp [strLt] at hyz
      | cons c cs => rfl
  | cons a as ih =>
    intro y z hxy hyz
    cases y with
    | nil => simp [strLt] at hxy
    | cons b bs =>
      cases z with
      | nil => simp [strLt] at hyz
      | cons c cs =>
        simp only [strLt] at hxy hyz ⊢
        by_cases hab : a < b
        · by_cases hbc : b < c
          · rw [if_pos (lt_trans hab hbc)]
          · rw [if_neg hbc] at hyz
            by_cases hbc2 : b = c
            · subst hbc2; rw [if_pos hab]
            · rw [if_neg hbc2] at hyz; exact absurd hyz (by simp)
        · rw [if_neg hab] at hxy
          by_cases hab2 : a = b
          · subst hab2
            rw [if_pos rfl] at hxy
            by_cases hac : a < c
            · rw [if_pos hac]
            · rw [if_neg hac] at hyz ⊢
              by_cases hac2 : a = c
              · rw [if_pos hac2] at hyz ⊢; exact ih bs cs hxy hyz
              · rw [if_neg hac2] at hyz; exact absurd hyz (by simp)
          · rw [if_neg hab2] at hxy; exact absurd hxy (by simp)

theorem strLt_connex (x : Str) :
    ∀ y, x ≠ y → strLt x y = true ∨ strLt y x = true := by
  induction x with
  | nil =>
    intro y hne
    cases y with
    | nil => exact absurd rfl hne
    | cons b bs => left; rfl
  | cons a as ih =>
    intro y hne
    cases y with
    | nil => right; rfl
    | cons b bs =>
      rcases lt_trichotomy a b with h | h | h
      · left; simp only [strLt]; rw [if_pos h]
      · subst h
        have hne2 : as ≠ bs := fun he => hne (by rw [he])
        rcases ih bs hne2 with h2 | h2
        · left; simp only [strLt]; rw [if_neg (lt_irrefl a)]
          simp only [if_true]; exact h2
        · right; simp only [strLt]; rw [if_neg (lt_irrefl a)]
          simp only [if_true]; exact h2
      · right; simp only [strLt]; rw [if_pos h]

theorem rowLE_total (a b : Str × Str) : rowLE a b ∨ rowLE b a := by
  by_cases ht : a.2 = b.2
  · by_cases hn : a.1 = b.1
    · left; exact Or.inr ⟨ht, Or.inr hn⟩
    · rcases strLt_connex a.1 b.1 hn with h | h
      · left; exact Or.inr ⟨ht, Or.inl h⟩
      · right; exact Or.inr ⟨ht.symm, Or.inl h⟩
  · rcases strLt_connex a.2 b.2 ht with h | h
    · right; exact Or.inl h
    · left; exact Or.inl h

theorem rowLE_trans (a b c : Str × Str) (hab : rowLE a b) (hbc : rowLE b c) :
    rowLE a c := by
  rcases hab with h1 | ⟨h1, h2⟩
  · rcases hbc with h3 | ⟨h3, _⟩
    · exact Or.inl (strLt_trans c.2 b.2 a.2 h3 h1)
    · exact Or.inl (by rw [← h3]; exact h1)
  · rcases hbc with h3 | ⟨h3, h4⟩
    · exact Or.inl (by rw [h1]; exact h3)
    · right
      refine ⟨h1.trans h3, ?_⟩
      rcases h2 with h2 | h2
      · rcases h4 with h4 | h4
        · exact Or.inl (strLt_trans _ _ _ h2 h4)
        · exact Or.inl (by rw [← h4]; exact h2)
      · rcases h4 with h4 | h4
        · exact Or.inl (by rw [h2]; exact h4)
        · exact Or.inr (h2.trans h4)

theorem bool_eq_of_iff (a b : Bool) (h : a = true ↔ b = true) : a = b := by
  cases a <;> cases b <;> simp_all

/-! ### Characterizing the child GLOB pattern -/

theorem globMatch_star_all (s : Str) : globMatch (str "*") s = true := by
  induction s with
  | nil => decide
  | cons c s' ih =>
    have ih' : globMatch ('*' :: []) s' = true := ih
    show globMatch ('*' :: []) (c :: s') = true
    rw [globMatch_star_cons, ih']
    simp

theorem metaFree_cons (pc : Char) (l : Str) (h : metaFree (pc :: l) = true) :
    pc ≠ '*' ∧ pc ≠ '?' ∧ pc ≠ '[' ∧ metaFree l = true := by
  simp only [metaFree, List.all_cons, Bool.and_eq_true, Bool.not_eq_true',
    Bool.or_eq_false_iff, beq_eq_false_iff_ne, ne_eq] at h
  exact ⟨h.1.1.1, h.1.1.2, h.1.2, h.2⟩

theorem globMatch_lit_append (lit : Str) :
    ∀ (pat s : Str), metaFree lit = true →
      (globMatch (lit ++ pat) s = true ↔
        ∃ s', s = lit ++ s' ∧ globMatch pat s' = true) := by
  induction lit with
  | nil => intro pat s _; simp
  | cons pc lit' ih =>
    intro pat s hmf
    obtain ⟨h1, h2, h3, hrest⟩ := metaFree_cons pc lit' hmf
    cases s with
    | nil =>
      rw [List.cons_append, globMatch_cons_nil, if_neg h1]
      simp
    | cons c s'' =>
      rw [List.cons_append, globMatch_lit_cons pc _ c s'' h1 h2 h3]
      constructor
      · intro h
        simp only [Bool.and_eq_true, decide_eq_true_eq] at h
        obtain ⟨hpc, hg⟩ := h
        obtain ⟨s', hs, hgp⟩ := (ih pat s'' hrest).1 hg
        subst hpc
        exact ⟨s', by rw [hs]; rfl, hgp⟩
      · rintro ⟨s', hs, hgp⟩
        rw [List.cons_append] at hs
        injection hs with hc hs2
        simp only [Bool.and_eq_true, decide_eq_true_eq]
        exact ⟨hc.symm, (ih pat s'' hrest).2 ⟨s', hs2, hgp⟩⟩

theorem classMatch_child (c : Char) :
    classMatch (str "^/]*") c = if c = '/' then none else some (str "*") := by
  by_cases hc : c = '/'
  · subst hc; decide
  · rw [if_neg hc]
    show classMatch ('^' :: '/' :: ']' :: '*' :: []) c = some ('*' :: [])
    simp [classMatch, classInvert, classFirst, classBody, memClass, hc]

theorem globMatch_child_cons (c : Char) (s' : Str) :
    globMatch (str "[^/]*") (c :: s') = !(c == '/') := by
  show globMatch ('[' :: str "^/]*") (c :: s') = _
  rw [globMatch_class_cons, classMatch_child]
  by_cases hc : c = '/'
  · simp [hc]
  · simp only [if_neg hc]
    simp [hc, globMatch_star_all]

theorem globMatch_child_nil : globMatch (str "[^/]*") [] = false := by decide

/-! ### Canonical paths are tidy: no `//`, no trailing `/` -/

theorem tidyFrom_no_slash (p : Str) (h : '/' ∉ p) : tidyFrom p = true := by
  induction p with
  | nil => rfl
  | cons c cs ih =>
    have hc : c ≠ '/' := fun he => h (by simp [he])
    simp only [tidyFrom, if_neg hc]
    exact ih (fun hm => h (List.mem_cons_of_mem c hm))

theorem tidyFrom_slash_cons (x : Char) (r : Str) (hx : x ≠ '/') :
    tidyFrom ('/' :: x :: r) = tidyFrom (x :: r) := by
  simp [tidyFrom, hx]

theorem tidyFrom_append (pre l : Str) (h : '/' ∉ pre) :
    tidyFrom (pre ++ '/' :: l) = tidyFrom ('/' :: l) := by
  induction pre with
  | nil => rfl
  | cons c cs ih =>
    have hc : c ≠ '/' := fun he => h (by simp [he])
    have ih' := ih (fun hm => h (List.mem_cons_of_mem c hm))
    simp only [List.cons_append, tidyFrom, if_neg hc]
    exact ih'

theorem tidyFrom_join (segs : List Str) :
    segs ≠ [] → (∀ x ∈ segs, x ≠ [] ∧ '/' ∉ x) →
      tidyFrom ('/' :: joinSlash segs) = true := by
  induction segs with
  | nil => intro h; exact absurd rfl h
  | cons p ps ih =>
    intro _ h
    obtain ⟨hp, hps⟩ := h p (by simp)
    cases ps with
    | nil =>
      show tidyFrom ('/' :: p) = true
      cases p with
      | nil => exact absurd rfl hp
      | cons y ys =>
        have hy : y ≠ '/' := fun he => hps (by simp [he])
        rw [tidyFrom_slash_cons y ys hy]
        exact tidyFrom_no_slash _ hps
    | cons z zs =>
      rw [joinSlash_cons₂]
      cases p with
      | nil => exact absurd rfl hp
      | cons y ys =>
        have hy : y ≠ '/' := fun he => hps (by simp [he])
        rw [show ('/' :: ((y :: ys) ++ '/' :: joinSlash (z :: zs))) =
          '/' :: y :: (ys ++ '/' :: joinSlash (z :: zs)) from rfl]
        rw [tidyFrom_slash_cons]
        · rw [show (y :: (ys ++ '/' :: joinSlash (z :: zs))) =
            (y :: ys) ++ '/' :: joinSlash (z :: zs) from rfl]
          rw [tidyFrom_append _ _ hps]
          exact ih (by simp) (fun x hx => h x (List.mem_cons_of_mem _ hx))
        · exact hy

theorem canonical_tidy (p : Str) (hp : canonicalB p = true) (hne : p ≠ str "/") :
    tidyFrom p = true := by
  rcases canonicalB_elim p hp with h | ⟨rest, hpe, hrne, hclean⟩
  · exact absurd h hne
  · subst hpe
    have hrest : rest = joinSlash (splitOnSlash rest) :=
      (joinSlash_splitOnSlash rest).symm
    rw [hrest]
    exact tidyFrom_join (splitOnSlash rest) (splitOnSlash_ne_nil rest)
      (fun x hx => ⟨(hclean x hx).1, mem_splitOnSlash_no_slash rest x hx⟩)

theorem tidy_no_trailing : ∀ (d p : Str), tidyFrom p = true → p ≠ d ++ ['/'] := by
  intro d
  induction d with
  | nil =>
    intro p ht he
    rw [he] at ht
    simp [tidyFrom] at ht
  | cons c d' ih =>
    intro p ht he
    subst he
    rw [List.cons_append] at ht
    by_cases hc : c = '/'
    · subst hc
      cases hd : d' ++ ['/'] with
      | nil => simp at hd
      | cons x r =>
        rw [hd] at ht
        by_cases hx : x = '/'
        · subst hx; simp [tidyFrom] at ht
        · rw [tidyFrom_slash_cons x r hx] at ht
          exact ih (x :: r) ht hd.symm
    · simp only [tidyFrom, if_neg hc] at ht
      exact ih _ ht rfl

theorem tidy_no_dslash : ∀ (d s p : Str), tidyFrom p = true →
    p ≠ d ++ '/' :: '/' :: s := by
  intro d
  induction d with
  | nil =>
    intro s p ht he
    rw [he] at ht
    simp [tidyFrom] at ht
  | cons c d' ih =>
    intro s p ht he
    subst he
    rw [List.cons_append] at ht
    by_cases hc : c = '/'
    · subst hc
      cases hd : d' ++ '/' :: '/' :: s with
      | nil => simp at hd
      | cons x r =>
        rw [hd] at ht
        by_cases hx : x = '/'
        · subst hx; simp [tidyFrom] at ht
        · rw [tidyFrom_slash_cons x r hx] at ht
          exact ih s (x :: r) ht hd.symm
    · simp only [tidyFrom, if_neg hc] at ht
      exact ih s _ ht rfl

theorem canonical_nested (d p s : Str) (hp : canonicalB p = true)
    (hd : d ≠ []) (heq : p = d ++ '/' :: s) :
    ∃ c s', s = c :: s' ∧ c ≠ '/' := by
  have hpne : p ≠ str "/" := by
    intro he
    rw [heq] at he
    cases d with
    | nil => exact hd rfl
    | cons a d' =>
      have := congrArg List.length he
      simp [str] at this
  have ht := canonical_tidy p hp hpne
  cases s with
  | nil => exact absurd heq (tidy_no_trailing d p ht)
  | cons c s' =>
    by_cases hc : c = '/'
    · subst hc
      exact absurd heq (tidy_no_dslash d s' p ht)
    · exact ⟨c, s', rfl, hc⟩

theorem canonical_head (rest : Str) (hp : canonicalB ('/' :: rest) = true)
    (hne : rest ≠ []) : ∃ c r, rest = c :: r ∧ c ≠ '/' := by
  have hpne : ('/' :: rest) ≠ str "/" := by
    intro he
    injection he with _ h2
    exact hne h2
  have ht := canonical_tidy _ hp hpne
  cases rest with
  | nil => exact absurd rfl hne
  | cons c r =>
    by_cases hc : c = '/'
    · subst hc
      have : ('/' :: '/' :: r) = [] ++ '/' :: '/' :: r := rfl
      exact absurd this (tidy_no_dslash [] r _ ht)
    · exact ⟨c, r, rfl, hc⟩

theorem leadsWith_iff (pre : Str) :
    ∀ p, leadsWith pre p = true ↔ ∃ s, p = pre ++ s := by
  induction pre with
  | nil => intro p; simp [leadsWith]
  | cons a pre' ih =>
    intro p
    cases p with
    | nil =>
      simp only [leadsWith]
      constructor
      · intro h; exact absurd h (by simp)
      · rintro ⟨s, hs⟩; exact absurd hs (by simp)
    | cons b p' =>
      simp only [leadsWith, Bool.and_eq_true, decide_eq_true_eq]
      rw [ih p']
      constructor
      · rintro ⟨hab, s, hs⟩
        exact ⟨s, by rw [hab, hs]; rfl⟩
      · rintro ⟨s, hs⟩
        rw [List.cons_append] at hs
        injection hs with hb hp'
        exact ⟨hb.symm, s, hp'⟩

theorem canonicalB_ne_nil (p : Str) (h : canonicalB p = true) : p ≠ [] := by
  intro he; subst he; exact absurd h (by decide)

theorem str_slash : str "/" = ['/'] := rfl

/-- On canonical, metacharacter-free arguments, the `path + '/[^/]*'` GLOB
used by `list_directory` and `remove` matches exactly the paths strictly
nested under `path`, at any depth. -/
theorem globChildren_spec (q : Str) (hmf : metaFree q = true)
    (hqc : canonicalB q = true) (p : Str) (hpc : canonicalB p = true) :
    globMatch (VFS.globChildren q) p = nestedUnder q p := by
  apply bool_eq_of_iff
  by_cases hroot : q = str "/"
  · subst hroot
    rw [show VFS.globChildren (str "/") = str "/[^/]*" from rfl]
    rcases canonicalB_elim p hpc with hpe | ⟨rest, hpe, hrne, _⟩
    · rw [hpe]; decide
    · subst hpe
      obtain ⟨c, r, hre, hcne⟩ := canonical_head rest hpc hrne
      subst hre
      rw [show (str "/[^/]*") = '/' :: str "[^/]*" from rfl,
        globMatch_lit_cons _ _ _ _ (by decide) (by decide) (by decide),
        globMatch_child_cons]
      have hpq : (('/' :: c :: r : Str) == str "/") = false := by
        simp [str_slash]
      simp [nestedUnder, leadsWith, hcne, hpq, str_slash]
  · have hsplit : VFS.globChildren q = (q ++ ['/']) ++ str "[^/]*" := by
      rw [VFS.globChildren, if_neg hroot, List.append_assoc]
      rfl
    rw [hsplit]
    have hmf2 : metaFree (q ++ ['/']) = true := by
      simp only [metaFree, List.all_append] at hmf ⊢
      rw [hmf]
      decide
    rw [globMatch_lit_append (q ++ ['/']) (str "[^/]*") p hmf2]
    simp only [nestedUnder, if_neg hroot, Bool.and_eq_true]
    constructor
    · rintro ⟨s', hs, hg⟩
      cases s' with
      | nil => rw [globMatch_child_nil] at hg; exact absurd hg (by simp)
      | cons c r =>
        constructor
        · rw [leadsWith_iff]
          exact ⟨c :: r, by rw [hs]; rfl⟩
        · simp only [Bool.not_eq_true', beq_eq_false_iff_ne, ne_eq]
          intro he
          rw [he] at hs
          have := congrArg List.length hs
          simp at this
    · rintro ⟨hlw, _⟩
      rw [leadsWith_iff] at hlw
      obtain ⟨s, hs⟩ := hlw
      rw [List.append_assoc] at hs
      rw [show (str "/" ++ s) = '/' :: s from rfl] at hs
      obtain ⟨c, s', hse, hcne⟩ :=
        canonical_nested q p s hpc (canonicalB_ne_nil q hqc) hs
      subst hse
      refine ⟨c :: s', ?_, ?_⟩
      · rw [hs, List.append_assoc]
        rfl
      · rw [globMatch_child_cons]
        simp [hcne]


/-! ### Invariants of reachable states -/

theorem exists_node_norm (s : VFSState) (p : Str) :
    VFS.exists_node s (normalize_path s.current_path p) = VFS.exists_node s p := by
  unfold VFS.exists_node
  rw [normalize_path_norm]

theorem is_file_norm (s : VFSState) (p : Str) :
    VFS.is_file s (normalize_path s.current_path p) = VFS.is_file s p := by
  unfold VFS.is_file
  rw [normalize_path_norm]

theorem is_directory_norm (s : VFSState) (p : Str) :
    VFS.is_directory s (normalize_path s.current_path p) = VFS.is_directory s p := by
  unfold VFS.is_directory
  rw [normalize_path_norm]

theorem exists_node_false_notin (s : VFSState) (p : Str)
    (h : VFS.exists_node s p = false) :
    normalize_path s.current_path p ∉ s.fs.map Node.path := by
  simp only [VFS.exists_node] at h
  intro hmem
  obtain ⟨n, hn, hq⟩ := List.mem_map.1 hmem
  have hany : s.fs.any (fun x => x.path == normalize_path s.current_path p) = true := by
    rw [List.any_eq_true]
    exact ⟨n, hn, by rw [hq]; exact beq_self_eq_true _⟩
  rw [hany] at h
  exact absurd h (by simp)

theorem exists_node_norm_false (s : VFSState) (p : Str)
    (h : ¬ VFS.exists_node s (normalize_path s.current_path p) = true) :
    normalize_path s.current_path p ∉ s.fs.map Node.path := by
  rw [exists_node_norm] at h
  exact exists_node_false_notin s p (Bool.eq_false_iff.mpr h)

theorem wf_init : wfState initState := by
  refine ⟨?_, ?_, ?_⟩ <;> decide

theorem map_path_update (fs : List Node) (u : Node → Node)
    (hu : ∀ n, (u n).path = n.path) :
    (fs.map u).map Node.path = fs.map Node.path := by
  rw [List.map_map]
  exact List.map_congr_left (fun n _ => hu n)

theorem contentUpdate_path (q C : Str) (n : Node) :
    (contentUpdate q C n).path = n.path := by
  unfold contentUpdate
  split <;> rfl

theorem contentUpdate_type (q C : Str) (n : Node) :
    (contentUpdate q C n).type = n.type := by
  unfold contentUpdate
  split <;> rfl

theorem wf_write (s : VFSState) (hwf : wfState s) (p c : Str) (a : Bool) :
    wfState (VFS.write_file s p c a).2 := by
  obtain ⟨hnodes, hnodup, hcur⟩ := hwf
  simp only [VFS.write_file]
  split
  · split
    · exact ⟨hnodes, hnodup, hcur⟩
    · refine ⟨?_, ?_, hcur⟩
      · intro n hn
        obtain ⟨m, hm, hmu⟩ := List.mem_map.1 hn
        rw [← hmu, contentUpdate_path, contentUpdate_type]
        exact hnodes m hm
      · rw [map_path_update _ _ (fun n => contentUpdate_path _ _ n)]
        exact hnodup
  · refine ⟨?_, ?_, hcur⟩
    · intro n hn
      rcases List.mem_append.1 hn with hn | hn
      · exact hnodes n hn
      · simp only [List.mem_singleton] at hn
        subst hn
        exact ⟨canonicalB_normalize _ _, Or.inl rfl⟩
    · rw [List.map_append]
      simp only [List.map_cons, List.map_nil]
      rw [List.nodup_append]
      refine ⟨hnodup, List.nodup_singleton _, ?_⟩
      intro x hx hx2
      simp only [List.mem_singleton] at hx2
      subst hx2
      next hex =>
        exact exists_node_norm_false s p hex hx

theorem wf_mkdir (s : VFSState) (hwf : wfState s) (p : Str) :
    wfState (VFS.create_directory s p).2 := by
  obtain ⟨hnodes, hnodup, hcur⟩ := hwf
  simp only [VFS.create_directory]
  split
  · exact ⟨hnodes, hnodup, hcur⟩
  · split
    · exact ⟨hnodes, hnodup, hcur⟩
    · refine ⟨?_, ?_, hcur⟩
      · intro n hn
        rcases List.mem_append.1 hn with hn | hn
        · exact hnodes n hn
        · simp only [List.mem_singleton] at hn
          subst hn
          exact ⟨canonicalB_normalize _ _, Or.inr rfl⟩
      · rw [List.map_append]
        simp only [List.map_cons, List.map_nil]
        rw [List.nodup_append]
        refine ⟨hnodup, List.nodup_singleton _, ?_⟩
        intro x hx hx2
        simp only [List.mem_singleton] at hx2
        subst hx2
        next hex _ =>
          exact exists_node_norm_false s p hex hx

theorem wf_remove (s : VFSState) (hwf : wfState s) (p : Str) :
    wfState (VFS.remove s p).2 := by
  obtain ⟨hnodes, hnodup, hcur⟩ := hwf
  simp only [VFS.remove]
  split
  · exact ⟨hnodes, hnodup, hcur⟩
  · split
    · exact ⟨hnodes, hnodup, hcur⟩
    · refine ⟨?_, ?_, hcur⟩
      · intro n hn
        exact hnodes n (List.mem_of_mem_filter hn)
      · exact List.Nodup.sublist
          (List.Sublist.map Node.path (List.filter_sublist s.fs)) hnodup

theorem wf_cd (s : VFSState) (hwf : wfState s) (p : Str) :
    wfState (VFS.change_directory s p).2 := by
  obtain ⟨hnodes, hnodup, hcur⟩ := hwf
  simp only [VFS.change_directory]
  split
  · exact ⟨hnodes, hnodup, hcur⟩
  · exact ⟨hnodes, hnodup, normalize_path_absolute _ _⟩

theorem wf_reset (s : VFSState) : wfState (VFS.reset_filesystem s).2 :=
  wf_init

theorem reachable_wf (s : VFSState) (h : Reachable s) : wfState s := by
  induction h with
  | init => exact wf_init
  | write s p c a _ ih => exact wf_write s ih p c a
  | mkdir s p _ ih => exact wf_mkdir s ih p
  | rm s p _ ih => exact wf_remove s ih p
  | cd s p _ ih => exact wf_cd s ih p
  | reset s _ => exact wf_reset s


/-! ### Claim theorems -/

/-- C1: the listing drill-down.  After `createDirectory("/a")`,
`createDirectory("/a/b")`, `writeFile("/a/b/f", "x")`, the call
`listDirectory("/a")` does NOT return `[("b", Directory)]`: SQLite GLOB
`*` also matches `/`, so the grandchild file `f` is included (and the
`ORDER BY type DESC` clause places it first).  This contradicts the
`# Get direct children` comment in the source and the spec. -/
theorem C1_listing_includes_deeper_descendants :
    VFS.list_directory sABF (some (str "/a")) =
      some [(str "f", str "file"), (str "b", str "directory")] := by decide

/-- C2 counterexample: in the reachable state with directories `/a*`,
`/ab` and `/ab/c`, `remove("/a*")` fails even though no node is strictly
nested under `/a*`: the GLOB pattern `/a*/[^/]*` matches `/ab/c` because
`*` in the directory's own name acts as a wildcard. -/
theorem C2_counterexample :
    Reachable mkStarAbc ∧
    VFS.is_directory mkStarAbc (str "/a*") = true ∧
    (VFS.remove mkStarAbc (str "/a*")).1 = false ∧
    mkStarAbc.fs.any (fun n => nestedUnder (str "/a*") n.path) = false :=
  ⟨Reachable.mkdir _ _ (Reachable.mkdir _ _ (Reachable.mkdir _ _ Reachable.init)),
    by decide, by decide, by decide⟩

/-- C3 counterexample: after removing `/home`, `/tmp`, `/usr`, `/var` and
`/welcome.txt`, the call `remove("/")` succeeds (the child GLOB matches
nothing) and deletes the root row, so the reachable state `rmRoot` has no
node with path `/`. -/
theorem C3_counterexample :
    Reachable rmRoot ∧
    (VFS.remove rmWelcome (str "/")).1 = true ∧
    rmRoot.fs.countP (fun n => n.path == str "/") = 0 :=
  ⟨Reachable.rm _ _ (Reachable.rm _ _ (Reachable.rm _ _ (Reachable.rm _ _
      (Reachable.rm _ _ (Reachable.rm _ _ Reachable.init))))),
    by decide, by decide⟩

/-- C4 counterexample: after `changeDirectory("/home")` then
`remove("/home")` the cursor still reads `/home`, but no node with that
path exists any more — the cursor is left dangling, contradicting
"always referring to an existing Directory node". -/
theorem C4_counterexample :
    Reachable cdHomeRm ∧
    cdHomeRm.current_path = str "/home" ∧
    VFS.exists_node cdHomeRm (str "/home") = false ∧
    VFS.is_directory cdHomeRm cdHomeRm.current_path = false :=
  ⟨Reachable.rm _ _ (Reachable.cd _ _ Reachable.init),
    by decide, by decide, by decide⟩

/-- C5 counterexample: listing `/` in the initial state puts the File row
`welcome.txt` first — `ORDER BY type DESC` sorts the string `'file'`
before `'directory'`, so Directory entries do NOT precede File entries. -/
theorem C5_counterexample :
    VFS.list_directory initState (some (str "/")) =
      some [(str "welcome.txt", str "file"), (str "home", str "directory"),
        (str "tmp", str "directory"), (str "usr", str "directory"),
        (str "var", str "directory")] ∧
    dirsFirst [(str "welcome.txt", str "file"), (str "home", str "directory"),
      (str "tmp", str "directory"), (str "usr", str "directory"),
      (str "var", str "directory")] = false := by decide

/-- C6 counterexample: `createDirectory("/welcome.txt/d")` succeeds in the
initial state although the parent `/welcome.txt` is a File, not a
Directory — the code checks only parent existence. -/
theorem C6_counterexample :
    (VFS.create_directory initState (str "/welcome.txt/d")).1 = true ∧
    VFS.is_file initState (str "/welcome.txt") = true ∧
    VFS.is_directory initState (str "/welcome.txt") = false := by decide

theorem reset_snd (s : VFSState) : (VFS.reset_filesystem s).2 = initState := rfl

/-- C8: `reset()` discards the whole state and rebuilds the fixed default
table, so after a reset from ANY state, listing `/` yields exactly the five
default entries (the four directories and `welcome.txt`, in the code's
`type DESC, name` order), the cursor is `/`, and `/welcome.txt` holds the
fixed welcome text. -/
theorem C8_reset_restores_startup (s : VFSState) :
    VFS.list_directory (VFS.reset_filesystem s).2 (some (str "/")) =
      some [(str "welcome.txt", str "file"), (str "home", str "directory"),
        (str "tmp", str "directory"), (str "usr", str "directory"),
        (str "var", str "directory")] ∧
    (VFS.reset_filesystem s).2.current_path = str "/" ∧
    VFS.read_file (VFS.reset_filesystem s).2 (str "/welcome.txt") =
      some (str "Welcome to Tasnuva TOS!\nThis is a virtual filesystem.\nTry commands like ls, cd, mkdir, touch, cat, echo, rm.\n") := by
  rw [reset_snd]
  decide

/-- C9: `normalize_path` is idempotent — normalizing an already-normalized
path (against the same base) returns it unchanged. -/
theorem C9_normalize_idempotent (b p : Str) :
    normalize_path b (normalize_path b p) = normalize_path b p :=
  normalize_path_norm b b p


theorem file_beq_directory : (str "file" == str "directory") = false := by decide

theorem directory_beq_file : (str "directory" == str "file") = false := by decide

/-- C5 (amended): every listing is sorted by the SQL key
`type DESC, name ASC` — so File-kind rows come first (the type string
`'file'` is greater than `'directory'` under BINARY collation), then
Directory-kind rows, lexicographically by name inside each group. -/
theorem C5_listing_sorted (s : VFSState) (d : Str) (l : List (Str × Str))
    (h : VFS.list_directory s (some d) = some l) : l.Sorted rowLE := by
  haveI : IsTotal (Str × Str) rowLE := ⟨rowLE_total⟩
  haveI : IsTrans (Str × Str) rowLE := ⟨rowLE_trans⟩
  simp only [VFS.list_directory] at h
  split at h
  · exact absurd h (by simp)
  · injection h with h'
    rw [← h']
    exact List.sorted_insertionSort rowLE _

theorem C5_witness :
    List.Sorted rowLE [(str "welcome.txt", str "file"),
      (str "home", str "directory"), (str "tmp", str "directory"),
      (str "usr", str "directory"), (str "var", str "directory")] :=
  C5_listing_sorted initState (str "/") _ (by decide)

/-- C10: for every reachable state and every path, `is_file` and
`is_directory` are never both true, and `exists` holds iff exactly one of
them does — every stored kind is `file` or `directory` (the schema CHECK
constraint). -/
theorem C10_kind_partition (s : VFSState) (h : Reachable s) (p : Str) :
    (VFS.is_file s p && VFS.is_directory s p) = false ∧
    VFS.exists_node s p = (VFS.is_file s p).xor (VFS.is_directory s p) := by
  obtain ⟨hnodes, _, _⟩ := reachable_wf s h
  simp only [VFS.is_file, VFS.is_directory, VFS.exists_node]
  cases hf : s.fs.find? (fun n => n.path == normalize_path s.current_path p) with
  | none =>
    have hall := List.find?_eq_none.1 hf
    constructor
    · rfl
    · have hany : s.fs.any (fun n => n.path == normalize_path s.current_path p) = false := by
        rw [List.any_eq_false]
        intro n hn
        simpa using hall n hn
      rw [hany]
      rfl
  | some n =>
    have hmem := List.mem_of_find?_eq_some hf
    have hpred := List.find?_some hf
    obtain ⟨_, hkind⟩ := hnodes n hmem
    have hany : s.fs.any (fun x => x.path == normalize_path s.current_path p) = true := by
      rw [List.any_eq_true]
      exact ⟨n, hmem, hpred⟩
    rw [hany]
    show ((n.type == str "file") && (n.type == str "directory")) = false ∧
      true = ((n.type == str "file").xor (n.type == str "directory"))
    rcases hkind with hk | hk
    · rw [hk, file_beq_directory, beq_self_eq_true]
      exact ⟨rfl, rfl⟩
    · rw [hk, directory_beq_file, beq_self_eq_true]
      exact ⟨rfl, rfl⟩

theorem C10_witness :
    Reachable initState ∧
    (VFS.is_file initState (str "/home") && VFS.is_directory initState (str "/home")) = false ∧
    VFS.exists_node initState (str "/home") =
      (VFS.is_file initState (str "/home")).xor (VFS.is_directory initState (str "/home")) :=
  ⟨Reachable.init, (C10_kind_partition initState Reachable.init (str "/home")).1,
    (C10_kind_partition initState Reachable.init (str "/home")).2⟩


theorem create_directory_eq (s : VFSState) (p : Str) :
    VFS.create_directory s p =
      if VFS.exists_node s p = true then (false, s)
      else if dirname (normalize_path s.current_path p) ≠ normalize_path s.current_path p ∧
          ¬ VFS.exists_node s (dirname (normalize_path s.current_path p)) = true then
        (false, s)
      else
        (true, { s with fs := s.fs ++
          [{ path := normalize_path s.current_path p,
             name := basename (normalize_path s.current_path p),
             type := str "directory", content := [] }] }) := by
  simp only [VFS.create_directory, exists_node_norm]

/-- C6 (amended): `createDirectory(p)` fails when the normalized path
already exists; fails when the parent (`os.path.dirname` of the normalized
path) differs from the path and does not exist; otherwise it succeeds and
appends a new empty `directory` row — so the parent of a newly created
non-root node exists at creation time, but its kind is NOT checked (a File
parent is accepted, see the counterexample). -/
theorem C6_create_directory_guard (s : VFSState) (p : Str) :
    (VFS.exists_node s p = true → VFS.create_directory s p = (false, s)) ∧
    (VFS.exists_node s p = false →
      dirname (normalize_path s.current_path p) ≠ normalize_path s.current_path p →
      VFS.exists_node s (dirname (normalize_path s.current_path p)) = false →
      VFS.create_directory s p = (false, s)) ∧
    (VFS.exists_node s p = false →
      (dirname (normalize_path s.current_path p) = normalize_path s.current_path p ∨
        VFS.exists_node s (dirname (normalize_path s.current_path p)) = true) →
      (VFS.create_directory s p).1 = true ∧
      (VFS.create_directory s p).2.fs = s.fs ++
        [{ path := normalize_path s.current_path p,
           name := basename (normalize_path s.current_path p),
           type := str "directory", content := [] }] ∧
      VFS.is_directory (VFS.create_directory s p).2 p = true) := by
  rw [create_directory_eq]
  refine ⟨?_, ?_, ?_⟩
  · intro hex
    rw [if_pos hex]
  · intro hex hpar hparex
    rw [if_neg (by simp [hex]), if_pos ⟨hpar, by simp [hparex]⟩]
  · intro hex hpar
    rw [if_neg (by simp [hex]), if_neg (by
      rcases hpar with h | h
      · simp [h]
      · simp [h])]
    refine ⟨rfl, rfl, ?_⟩
    simp only [VFS.is_directory]
    have hfs : ∀ n ∈ s.fs, ¬ ((fun n => n.path ==
        normalize_path s.current_path p) n = true) := by
      intro n hn hq
      have hany : s.fs.any (fun x => x.path == normalize_path s.current_path p) = true := by
        rw [List.any_eq_true]
        exact ⟨n, hn, hq⟩
      simp only [VFS.exists_node] at hex
      rw [hany] at hex
      exact absurd hex (by simp)
    have hnone : s.fs.find? (fun n => n.path == normalize_path s.current_path p) = none :=
      List.find?_eq_none.2 hfs
    rw [show ({ s with fs := s.fs ++
        [{ path := normalize_path s.current_path p,
           name := basename (normalize_path s.current_path p),
           type := str "directory", content := [] }] } : VFSState).current_path =
      s.current_path from rfl]
    rw [List.find?_append, hnone]
    simp [beq_self_eq_true]

theorem C6_witness :
    VFS.exists_node initState (str "/home/x") = false ∧
    (dirname (normalize_path initState.current_path (str "/home/x")) =
        normalize_path initState.current_path (str "/home/x") ∨
      VFS.exists_node initState
        (dirname (normalize_path initState.current_path (str "/home/x"))) = true) ∧
    (VFS.create_directory initState (str "/home/x")).1 = true ∧
    VFS.is_directory (VFS.create_directory initState (str "/home/x")).2
      (str "/home/x") = true :=
  ⟨by decide, by decide,
    ((C6_create_directory_guard initState (str "/home/x")).2.2 (by decide)
      (by decide)).1,
    ((C6_create_directory_guard initState (str "/home/x")).2.2 (by decide)
      (by decide)).2.2⟩


theorem write_file_eq (s : VFSState) (p c : Str) (a : Bool) :
    VFS.write_file s p c a =
      if VFS.exists_node s p = true then
        (if VFS.is_file s p = true then
          (true, { s with fs := s.fs.map (contentUpdate
            (normalize_path s.current_path p)
            (if a then
              (match s.fs.find? (fun m =>
                  m.path == normalize_path s.current_path p) with
                | some m => m.content
                | none => []) ++ c
             else c)) })
        else (false, s))
      else
        (true, { s with fs := s.fs ++
          [{ path := normalize_path s.current_path p,
             name := basename (normalize_path s.current_path p),
             type := str "file", content := c }] }) := by
  simp only [VFS.write_file, exists_node_norm, is_file_norm]
  by_cases h1 : VFS.exists_node s p = true
  · rw [if_pos h1, if_pos h1]
    by_cases h2 : VFS.is_file s p = true
    · rw [if_neg (by simp [h2]), if_pos h2]
    · rw [if_pos (by simp [h2]), if_neg h2]
  · rw [if_neg h1, if_neg h1]

theorem remove_eq (s : VFSState) (p : Str) :
    VFS.remove s p =
      if VFS.exists_node s p = false then (false, s)
      else if VFS.is_directory s p = true ∧
          0 < s.fs.countP (fun n =>
            globMatch (VFS.globChildren (normalize_path s.current_path p)) n.path) then
        (false, s)
      else
        (true, { s with fs := s.fs.filter (fun n =>
          ¬ (n.path == normalize_path s.current_path p)) }) := by
  simp only [VFS.remove, exists_node_norm, is_directory_norm]
  by_cases h1 : VFS.exists_node s p = false
  · rw [if_pos (by simp [h1]), if_pos h1]
  · rw [if_neg h1]
    rw [if_neg (by simp at h1 ⊢; exact h1)]

theorem change_directory_eq (s : VFSState) (p : Str) :
    VFS.change_directory s p =
      if VFS.exists_node s p = true ∧ VFS.is_directory s p = true
      then (true, { s with current_path := normalize_path s.current_path p })
      else (false, s) := by
  simp only [VFS.change_directory, exists_node_norm, is_directory_norm]
  by_cases hc : VFS.exists_node s p = true ∧ VFS.is_directory s p = true
  · rw [if_neg (not_not_intro hc), if_pos hc]
  · rw [if_pos hc, if_neg hc]

theorem write_file_cursor (s : VFSState) (p c : Str) (a : Bool) :
    (VFS.write_file s p c a).2.current_path = s.current_path := by
  rw [write_file_eq]
  split
  · split <;> rfl
  · rfl

theorem create_directory_cursor (s : VFSState) (p : Str) :
    (VFS.create_directory s p).2.current_path = s.current_path := by
  rw [create_directory_eq]
  split
  · rfl
  · split <;> rfl

theorem remove_cursor (s : VFSState) (p : Str) :
    (VFS.remove s p).2.current_path = s.current_path := by
  rw [remove_eq]
  split
  · rfl
  · split <;> rfl

/-- C4 (amended): in every reachable state the cursor is an absolute path;
`write_file`, `create_directory` and `remove` never change it; a successful
`change_directory` sets it to the normalized target, which is an existing
directory of the pre-state, and a failed one leaves the state unchanged;
`reset_filesystem` sets it to `/`.  (It is not guaranteed to keep referring
to an existing node — see the counterexample.) -/
theorem C4_cursor_behavior (s : VFSState) (h : Reachable s) :
    leadsWith (str "/") s.current_path = true ∧
    (∀ p c a, (VFS.write_file s p c a).2.current_path = s.current_path) ∧
    (∀ p, (VFS.create_directory s p).2.current_path = s.current_path) ∧
    (∀ p, (VFS.remove s p).2.current_path = s.current_path) ∧
    (∀ p, ((VFS.change_directory s p).1 = true →
        (VFS.change_directory s p).2.current_path = normalize_path s.current_path p ∧
        VFS.exists_node s p = true ∧ VFS.is_directory s p = true) ∧
      ((VFS.change_directory s p).1 = false → (VFS.change_directory s p).2 = s)) ∧
    (VFS.reset_filesystem s).2.current_path = str "/" := by
  refine ⟨(reachable_wf s h).2.2, fun p c a => write_file_cursor s p c a,
    fun p => create_directory_cursor s p, fun p => remove_cursor s p,
    fun p => ?_, rfl⟩
  rw [change_directory_eq]
  by_cases hc : VFS.exists_node s p = true ∧ VFS.is_directory s p = true
  · rw [if_pos hc]
    exact ⟨fun _ => ⟨rfl, hc⟩, fun hf => absurd hf (by simp)⟩
  · rw [if_neg hc]
    exact ⟨fun ht => absurd ht (by simp), fun _ => rfl⟩

theorem C4_witness :
    leadsWith (str "/") initState.current_path = true ∧
    (VFS.write_file initState (str "x") (str "y") false).2.current_path =
      initState.current_path ∧
    (VFS.remove initState (str "/home")).2.current_path = initState.current_path ∧
    (VFS.reset_filesystem initState).2.current_path = str "/" :=
  ⟨(C4_cursor_behavior initState Reachable.init).1,
    (C4_cursor_behavior initState Reachable.init).2.1 (str "x") (str "y") false,
    (C4_cursor_behavior initState Reachable.init).2.2.2.1 (str "/home"),
    (C4_cursor_behavior initState Reachable.init).2.2.2.2.2⟩


theorem countP_filter_keep (l : List Node) (pd pf : Node → Bool)
    (h : ∀ n, pd n = true → pf n = true) :
    (l.filter pf).countP pd = l.countP pd := by
  induction l with
  | nil => rfl
  | cons x xs ih =>
    by_cases hf : pf x = true
    · rw [List.filter_cons_of_pos hf]
      by_cases hd : pd x = true
      · rw [List.countP_cons_of_pos _ _ hd, List.countP_cons_of_pos _ _ hd, ih]
      · rw [List.countP_cons_of_neg _ _ hd, List.countP_cons_of_neg _ _ hd, ih]
    · rw [List.filter_cons_of_neg hf]
      have hd : ¬ pd x = true := fun hdx => hf (h x hdx)
      rw [List.countP_cons_of_neg _ _ hd, ih]

theorem countP_map_update (l : List Node) (u : Node → Node) (pd : Node → Bool)
    (h : ∀ n, pd (u n) = pd n) :
    (l.map u).countP pd = l.countP pd := by
  induction l with
  | nil => rfl
  | cons x xs ih =>
    simp only [List.map_cons]
    by_cases hd : pd x = true
    · rw [List.countP_cons_of_pos _ _ (by rw [h x]; exact hd),
        List.countP_cons_of_pos _ _ hd, ih]
    · rw [List.countP_cons_of_neg _ _ (by rw [h x]; exact hd),
        List.countP_cons_of_neg _ _ hd, ih]

/-- The root-row invariant maintained as long as `remove` is never called
on a path normalizing to `/`. -/
def rootInv (s : VFSState) : Prop :=
  s.fs.countP (fun n => n.path == str "/") = 1 ∧
  (∀ n ∈ s.fs, n.path = str "/" → n.type = str "directory")

theorem rootInv_root_mem (s : VFSState) (h : rootInv s) :
    str "/" ∈ s.fs.map Node.path := by
  have hpos : 0 < s.fs.countP (fun n => n.path == str "/") := by
    rw [h.1]; exact Nat.one_pos
  obtain ⟨n, hn, hq⟩ := List.countP_pos_iff.1 hpos
  exact List.mem_map.2 ⟨n, hn, by simpa using hq⟩

theorem rootInv_insert (s : VFSState) (h : rootInv s) (node : Node)
    (hne : node.path ≠ str "/") :
    rootInv { s with fs := s.fs ++ [node], current_path := s.current_path } := by
  constructor
  · show (s.fs ++ [node]).countP (fun n => n.path == str "/") = 1
    rw [List.countP_append, h.1]
    have : (([node] : List Node).countP (fun n => n.path == str "/")) = 0 := by
      rw [List.countP_eq_zero]
      intro n hn
      simp only [List.mem_singleton] at hn
      subst hn
      simpa using hne
    rw [this]
  · intro n hn hq
    rcases List.mem_append.1 hn with hn | hn
    · exact h.2 n hn hq
    · simp only [List.mem_singleton] at hn
      subst hn
      exact absurd hq hne

theorem rootInv_update (s : VFSState) (h : rootInv s) (u : Node → Node)
    (hpath : ∀ n, (u n).path = n.path) (htype : ∀ n, (u n).type = n.type) :
    rootInv { s with fs := s.fs.map u, current_path := s.current_path } := by
  constructor
  · show (s.fs.map u).countP (fun n => n.path == str "/") = 1
    rw [countP_map_update s.fs u _ (fun n => by rw [hpath n]), h.1]
  · intro n hn hq
    obtain ⟨m, hm, hmu⟩ := List.mem_map.1 hn
    subst hmu
    rw [htype m]
    exact h.2 m hm (by rw [← hpath m]; exact hq)

/-- C3 (amended): in every state reachable without ever calling `remove`
on a path that normalizes to `/`, exactly one node with path `/` exists and
its kind is Directory; in particular `remove` of any other path never
deletes the root.  (`remove("/")` itself CAN delete the root once all other
nodes are gone — see the counterexample.) -/
theorem C3_root_invariant (s : VFSState) (h : ReachableNR s) :
    s.fs.countP (fun n => n.path == str "/") = 1 ∧
    (∀ n ∈ s.fs, n.path = str "/" → n.type = str "directory") := by
  have : rootInv s := by
    induction h with
    | init => exact ⟨by decide, by decide⟩
    | write s p c a _ ih =>
      rw [write_file_eq]
      split
      · split
        · exact rootInv_update s ih _ (fun n => contentUpdate_path _ _ n)
            (fun n => contentUpdate_type _ _ n)
        · exact ih
      · next hex =>
        refine rootInv_insert s ih _ ?_
        intro hroot
        have hmem := rootInv_root_mem s ih
        rw [← hroot] at hmem
        exact exists_node_false_notin s p (by simpa using hex) hmem
    | mkdir s p _ ih =>
      rw [create_directory_eq]
      split
      · exact ih
      · split
        · exact ih
        · next hex _ =>
          refine rootInv_insert s ih _ ?_
          intro hroot
          have hmem := rootInv_root_mem s ih
          rw [← hroot] at hmem
          exact exists_node_false_notin s p (by simpa using hex) hmem
    | rm s p _ hnr ih =>
      rw [remove_eq]
      split
      · exact ih
      · split
        · exact ih
        · constructor
          · show (s.fs.filter _).countP (fun n => n.path == str "/") = 1
            rw [countP_filter_keep _ _ _ ?_, ih.1]
            intro n hd
            simp only [beq_iff_eq] at hd
            simp only [decide_eq_true_eq]
            intro hq
            rw [hd] at hq
            simp only [beq_iff_eq] at hq
            exact hnr hq.symm
          · intro n hn hq
            exact ih.2 n (List.mem_of_mem_filter hn) hq
    | cd s p _ ih =>
      rw [change_directory_eq]
      split
      · exact ih
      · exact ih
    | reset s _ _ =>
      rw [reset_snd]
      exact ⟨by decide, by decide⟩
  exact this

theorem C3_witness :
    ReachableNR initState ∧
    initState.fs.countP (fun n => n.path == str "/") = 1 :=
  ⟨ReachableNR.init, (C3_root_invariant initState ReachableNR.init).1⟩


theorem find?_map_pred (fs : List Node) (u : Node → Node) (pred : Node → Bool)
    (hu : ∀ n, pred (u n) = pred n) :
    (fs.map u).find? pred = (fs.find? pred).map u := by
  rw [List.find?_map, show pred ∘ u = pred from funext hu]

theorem any_map_pred (fs : List Node) (u : Node → Node) (pred : Node → Bool)
    (hu : ∀ n, pred (u n) = pred n) :
    (fs.map u).any pred = fs.any pred := by
  rw [List.any_map, show pred ∘ u = pred from funext hu]

theorem exists_node_mk_norm (fsx : List Node) (cur p : Str) :
    VFS.exists_node ⟨fsx, cur⟩ (normalize_path cur p) =
      VFS.exists_node ⟨fsx, cur⟩ p := by
  unfold VFS.exists_node
  dsimp only
  rw [normalize_path_norm]

theorem is_file_mk_norm (fsx : List Node) (cur p : Str) :
    VFS.is_file ⟨fsx, cur⟩ (normalize_path cur p) =
      VFS.is_file ⟨fsx, cur⟩ p := by
  unfold VFS.is_file
  dsimp only
  rw [normalize_path_norm]

/-- C7: the append law.  If `p` does not normalize to an existing
Directory, then `writeFile(p, a)`, `writeFile(p, b, append=true)`,
`readFile(p)` returns `a ++ b`: the first write replaces (or creates) the
file's content with `a`, the second concatenates `b` onto the stored
content. -/
theorem C7_append_law (s : VFSState) (h : Reachable s) (p a b : Str)
    (hnd : VFS.is_directory s p = false) :
    VFS.read_file ((VFS.write_file ((VFS.write_file s p a false).2) p b true).2) p
      = some (a ++ b) := by
  obtain ⟨hnodes, _, _⟩ := reachable_wf s h
  obtain ⟨fs, cur⟩ := s
  by_cases hex : VFS.exists_node ⟨fs, cur⟩ p = true
  · -- the normalized path names an existing row, necessarily a file
    have hexany : fs.any (fun n => n.path == normalize_path cur p) = true := hex
    have hfs : (fs.find? (fun n => n.path == normalize_path cur p)).isSome = true := by
      rw [List.find?_isSome]
      exact List.any_eq_true.1 hexany
    obtain ⟨n1, hf⟩ := Option.isSome_iff_exists.1 hfs
    have hmem1 : n1 ∈ fs := List.mem_of_find?_eq_some hf
    have hpred1 : (n1.path == normalize_path cur p) = true := by
      have := List.find?_some hf
      exact this
    have hdirne : (n1.type == str "directory") = false := by
      have hd : (match fs.find? (fun n => n.path == normalize_path cur p) with
        | some n => n.type == str "directory" | none => false) = false := hnd
      rw [hf] at hd
      exact hd
    have hkind : n1.type = str "file" := by
      rcases (hnodes n1 hmem1).2 with hk | hk
      · exact hk
      · rw [hk, beq_self_eq_true] at hdirne
        exact absurd hdirne (by simp)
    have hisfile : VFS.is_file ⟨fs, cur⟩ p = true := by
      show (match fs.find? (fun n => n.path == normalize_path cur p) with
        | some n => n.type == str "file" | none => false) = true
      rw [hf]
      show (n1.type == str "file") = true
      rw [hkind]
      exact beq_self_eq_true _
    rw [write_file_eq ⟨fs, cur⟩ p a false, if_pos hex, if_pos hisfile]
    simp only [Bool.false_eq_true, if_false]
    rw [write_file_eq]
    dsimp only
    have hex1 : VFS.exists_node
        ⟨fs.map (contentUpdate (normalize_path cur p) a), cur⟩ p = true := by
      show (fs.map (contentUpdate (normalize_path cur p) a)).any
        (fun n => n.path == normalize_path cur p) = true
      rw [any_map_pred _ _ _ (fun n => by simp [contentUpdate_path])]
      exact hexany
    have hf1 : (fs.map (contentUpdate (normalize_path cur p) a)).find?
        (fun n => n.path == normalize_path cur p) =
        some (contentUpdate (normalize_path cur p) a n1) := by
      rw [find?_map_pred _ _ _ (fun n => by simp [contentUpdate_path]), hf]
      rfl
    have hisfile1 : VFS.is_file
        ⟨fs.map (contentUpdate (normalize_path cur p) a), cur⟩ p = true := by
      show (match (fs.map (contentUpdate (normalize_path cur p) a)).find?
        (fun n => n.path == normalize_path cur p) with
        | some n => n.type == str "file" | none => false) = true
      rw [hf1]
      show ((contentUpdate (normalize_path cur p) a n1).type == str "file") = true
      rw [contentUpdate_type, hkind]
      exact beq_self_eq_true _
    rw [if_pos hex1, if_pos hisfile1]
    simp only [if_true]
    rw [hf1]
    have hcontent : (contentUpdate (normalize_path cur p) a n1).content = a := by
      unfold contentUpdate
      rw [if_pos hpred1]
    dsimp only
    rw [hcontent]
    have hex2 : VFS.exists_node
        ⟨(fs.map (contentUpdate (normalize_path cur p) a)).map
          (contentUpdate (normalize_path cur p) (a ++ b)), cur⟩ p = true := by
      show ((fs.map (contentUpdate (normalize_path cur p) a)).map
        (contentUpdate (normalize_path cur p) (a ++ b))).any
        (fun n => n.path == normalize_path cur p) = true
      rw [any_map_pred _ _ _ (fun n => by simp [contentUpdate_path])]
      exact hex1
    have hf2 : ((fs.map (contentUpdate (normalize_path cur p) a)).map
        (contentUpdate (normalize_path cur p) (a ++ b))).find?
        (fun n => n.path == normalize_path cur p) =
        some (contentUpdate (normalize_path cur p) (a ++ b)
          (contentUpdate (normalize_path cur p) a n1)) := by
      rw [find?_map_pred _ _ _ (fun n => by simp [contentUpdate_path]), hf1]
      rfl
    have hisfile2 : VFS.is_file
        ⟨(fs.map (contentUpdate (normalize_path cur p) a)).map
          (contentUpdate (normalize_path cur p) (a ++ b)), cur⟩ p = true := by
      show (match ((fs.map (contentUpdate (normalize_path cur p) a)).map
        (contentUpdate (normalize_path cur p) (a ++ b))).find?
        (fun n => n.path == normalize_path cur p) with
        | some n => n.type == str "file" | none => false) = true
      rw [hf2]
      show ((contentUpdate (normalize_path cur p) (a ++ b)
        (contentUpdate (normalize_path cur p) a n1)).type == str "file") = true
      rw [contentUpdate_type, contentUpdate_type, hkind]
      exact beq_self_eq_true _
    simp only [VFS.read_file]
    rw [exists_node_mk_norm, is_file_mk_norm]
    rw [if_neg (not_not_intro ⟨hex2, hisfile2⟩)]
    rw [hf2]
    dsimp only
    have hfinal : (contentUpdate (normalize_path cur p) (a ++ b)
        (contentUpdate (normalize_path cur p) a n1)).content = a ++ b := by
      unfold contentUpdate
      rw [if_pos hpred1]
      rw [if_pos (by exact hpred1)]
    rw [hfinal]
  · -- the path does not exist: the first write creates the file
    have hexany : fs.any (fun n => n.path == normalize_path cur p) = false :=
      Bool.eq_false_iff.mpr hex
    have hfnone : fs.find? (fun n => n.path == normalize_path cur p) = none := by
      rw [List.find?_eq_none]
      intro x hx hpx
      have hany : fs.any (fun n => n.path == normalize_path cur p) = true := by
        rw [List.any_eq_true]
        exact ⟨x, hx, hpx⟩
      rw [hany] at hexany
      exact absurd hexany (by simp)
    rw [write_file_eq ⟨fs, cur⟩ p a false, if_neg hex]
    rw [write_file_eq]
    dsimp only
    have hex1 : VFS.exists_node
        ⟨fs ++ [Node.mk (normalize_path cur p) (basename (normalize_path cur p)) (str "file") a], cur⟩ p = true := by
      show (fs ++ [Node.mk (normalize_path cur p) (basename (normalize_path cur p)) (str "file") a]).any
        (fun n => n.path == normalize_path cur p) = true
      rw [List.any_append, hexany]
      simp [beq_self_eq_true]
    have hf1 : (fs ++ [Node.mk (normalize_path cur p) (basename (normalize_path cur p)) (str "file") a]).find?
        (fun n => n.path == normalize_path cur p) =
        some (Node.mk (normalize_path cur p) (basename (normalize_path cur p)) (str "file") a) := by
      rw [List.find?_append, hfnone]
      rw [Option.none_or]
      exact List.find?_cons_of_pos _ (beq_self_eq_true _)
    have hisfile1 : VFS.is_file
        ⟨fs ++ [Node.mk (normalize_path cur p) (basename (normalize_path cur p)) (str "file") a], cur⟩ p = true := by
      show (match (fs ++ [Node.mk (normalize_path cur p) (basename (normalize_path cur p)) (str "file") a]).find?
        (fun n => n.path == normalize_path cur p) with
        | some n => n.type == str "file" | none => false) = true
      rw [hf1]
      exact beq_self_eq_true _
    rw [if_pos hex1, if_pos hisfile1]
    simp only [if_true]
    rw [hf1]
    dsimp only
    have hex2 : VFS.exists_node
        ⟨(fs ++ [Node.mk (normalize_path cur p) (basename (normalize_path cur p)) (str "file") a]).map
          (contentUpdate (normalize_path cur p) (a ++ b)), cur⟩ p = true := by
      show ((fs ++ [Node.mk (normalize_path cur p) (basename (normalize_path cur p)) (str "file") a]).map
        (contentUpdate (normalize_path cur p) (a ++ b))).any
        (fun n => n.path == normalize_path cur p) = true
      rw [any_map_pred _ _ _ (fun n => by simp [contentUpdate_path])]
      exact hex1
    have hf2 : ((fs ++ [Node.mk (normalize_path cur p) (basename (normalize_path cur p)) (str "file") a]).map
        (contentUpdate (normalize_path cur p) (a ++ b))).find?
        (fun n => n.path == normalize_path cur p) =
        some (contentUpdate (normalize_path cur p) (a ++ b)
          (Node.mk (normalize_path cur p) (basename (normalize_path cur p)) (str "file") a)) := by
      rw [find?_map_pred _ _ _ (fun n => by simp [contentUpdate_path]), hf1]
      rfl
    have hisfile2 : VFS.is_file
        ⟨(fs ++ [Node.mk (normalize_path cur p) (basename (normalize_path cur p)) (str "file") a]).map
          (contentUpdate (normalize_path cur p) (a ++ b)), cur⟩ p = true := by
      show (match ((fs ++ [Node.mk (normalize_path cur p) (basename (normalize_path cur p)) (str "file") a]).map
        (contentUpdate (normalize_path cur p) (a ++ b))).find?
        (fun n => n.path == normalize_path cur p) with
        | some n => n.type == str "file" | none => false) = true
      rw [hf2]
      show ((contentUpdate (normalize_path cur p) (a ++ b)
        (Node.mk (normalize_path cur p) (basename (normalize_path cur p)) (str "file") a)).type == str "file") = true
      rw [contentUpdate_type]
      exact beq_self_eq_true _
    simp only [VFS.read_file]
    rw [exists_node_mk_norm, is_file_mk_norm]
    rw [if_neg (not_not_intro ⟨hex2, hisfile2⟩)]
    rw [hf2]
    dsimp only
    have hfinal : (contentUpdate (normalize_path cur p) (a ++ b)
        (Node.mk (normalize_path cur p) (basename (normalize_path cur p)) (str "file") a)).content = a ++ b := by
      unfold contentUpdate
      rw [if_pos (beq_self_eq_true _)]
    rw [hfinal]

theorem C7_witness :
    Reachable initState ∧
    VFS.is_directory initState (str "/f") = false ∧
    VFS.read_file ((VFS.write_file ((VFS.write_file initState (str "/f")
      (str "xx") false).2) (str "/f") (str "yy") true).2) (str "/f")
      = some (str "xx" ++ str "yy") :=
  ⟨Reachable.init, by decide,
    C7_append_law initState Reachable.init (str "/f") (str "xx") (str "yy")
      (by decide)⟩


/-- C2 (amended): for every existing directory `d` whose canonical path
contains no GLOB metacharacter, `remove(d)` fails exactly when some stored
node's path is strictly nested under `d` (at ANY depth — the GLOB pattern
`d + '/[^/]*'` matches arbitrarily deep descendants because `*` also
matches `/`), and when `d` has no descendants the removal succeeds and
deletes `d`. -/
theorem C2_remove_nonempty_guard (s : VFSState) (h : Reachable s) (d : Str)
    (hdir : VFS.is_directory s d = true)
    (hmf : metaFree (normalize_path s.current_path d) = true) :
    ((VFS.remove s d).1 = false ↔
      s.fs.any (fun n => nestedUnder (normalize_path s.current_path d) n.path) = true) ∧
    (s.fs.any (fun n => nestedUnder (normalize_path s.current_path d) n.path) = false →
      (VFS.remove s d).1 = true ∧
      VFS.exists_node (VFS.remove s d).2 d = false) := by
  obtain ⟨hnodes, _, _⟩ := reachable_wf s h
  have hqc : canonicalB (normalize_path s.current_path d) = true :=
    canonicalB_normalize _ _
  have hpt : ∀ n ∈ s.fs,
      globMatch (VFS.globChildren (normalize_path s.current_path d)) n.path =
      nestedUnder (normalize_path s.current_path d) n.path :=
    fun n hn => globChildren_spec _ hmf hqc _ (hnodes n hn).1
  have hcount : (0 < s.fs.countP (fun n =>
      globMatch (VFS.globChildren (normalize_path s.current_path d)) n.path)) ↔
      s.fs.any (fun n =>
        nestedUnder (normalize_path s.current_path d) n.path) = true := by
    rw [List.countP_pos_iff, List.any_eq_true]
    constructor
    · rintro ⟨n, hn, hg⟩
      exact ⟨n, hn, by rw [← hpt n hn]; exact hg⟩
    · rintro ⟨n, hn, hg⟩
      exact ⟨n, hn, by rw [hpt n hn]; exact hg⟩
  have hex : VFS.exists_node s d = true := by
    simp only [VFS.is_directory] at hdir
    cases hfd : s.fs.find? (fun n => n.path == normalize_path s.current_path d) with
    | none => rw [hfd] at hdir; exact absurd hdir (by simp)
    | some n =>
      have hmem := List.mem_of_find?_eq_some hfd
      have hpred : (n.path == normalize_path s.current_path d) = true := by
        have := List.find?_some hfd
        exact this
      show s.fs.any (fun n => n.path == normalize_path s.current_path d) = true
      rw [List.any_eq_true]
      exact ⟨n, hmem, hpred⟩
  rw [remove_eq, if_neg (by simp [hex])]
  constructor
  · by_cases hne : s.fs.any (fun n =>
        nestedUnder (normalize_path s.current_path d) n.path) = true
    · rw [if_pos ⟨hdir, hcount.2 hne⟩]
      simp [hne]
    · rw [if_neg (fun hc => hne (hcount.1 hc.2))]
      simp [hne]
  · intro hnone
    rw [if_neg (fun hc => by rw [hcount.1 hc.2] at hnone; exact absurd hnone (by simp))]
    refine ⟨rfl, ?_⟩
    show (s.fs.filter (fun n =>
      ¬ (n.path == normalize_path s.current_path d))).any
      (fun n => n.path == normalize_path s.current_path d) = false
    rw [List.any_eq_false]
    intro n hn
    have hmem := List.mem_filter.1 hn
    have hnp : ¬ (n.path == normalize_path s.current_path d) = true := by
      have := hmem.2
      simpa using this
    simpa using hnp

theorem C2_witness :
    Reachable initState ∧
    VFS.is_directory initState (str "/home") = true ∧
    metaFree (normalize_path initState.current_path (str "/home")) = true ∧
    ((VFS.remove initState (str "/home")).1 = true ∧
      VFS.exists_node (VFS.remove initState (str "/home")).2 (str "/home") = false) :=
  ⟨Reachable.init, by decide, by decide,
    (C2_remove_nonempty_guard initState Reachable.init (str "/home")
      (by decide) (by decide)).2 (by decide)⟩


theorem C8_witness :
    VFS.list_directory (VFS.reset_filesystem sABF).2 (some (str "/")) =
      some [(str "welcome.txt", str "file"), (str "home", str "directory"),
        (str "tmp", str "directory"), (str "usr", str "directory"),
        (str "var", str "directory")] ∧
    (VFS.reset_filesystem sABF).2.current_path = str "/" ∧
    VFS.read_file (VFS.reset_filesystem sABF).2 (str "/welcome.txt") =
      some (str "Welcome to Tasnuva TOS!\nThis is a virtual filesystem.\nTry commands like ls, cd, mkdir, touch, cat, echo, rm.\n") :=
  C8_reset_restores_startup sABF

theorem C9_witness :
    normalize_path (str "/x") (normalize_path (str "/x") (str "a/../b")) =
      normalize_path (str "/x") (str "a/../b") :=
  C9_normalize_idempotent (str "/x") (str "a/../b")

end TOS
